import Mathlib

/-!
# Shallow embedding of the `OrderBook` order-book maintenance core

The repository holds two near-duplicate TypeScript `OrderBook` classes.
The first (guarded) class keeps `levelsDeep = 25`, guards its metrics with
`hasSpread` / `|| 0` defaults, and runs the per-side pipeline
`mapOrders → upsert → filterEmptyOrders → sumOrders → trimBook → commitOrders`.
The second (historical, unguarded) class runs the same pipeline but exposes
unguarded metrics (`highestBid` / `lowestAsk` may be `undefined`, so
`spread` / `midPoint` / `spreadPercent` may evaluate to `NaN`).

JavaScript numbers are modelled by `ℚ` (exact arithmetic); the non-finite
values `NaN` / `±Infinity` that can arise from `undefined` arithmetic or
division by zero are modelled by `Option ℚ` with `none` standing for any
non-finite/undefined result.
-/

/-- `OrderFeed = [number, number]`: a `(price, size)` tuple from the feed. -/
abbrev OrderFeed : Type := ℚ × ℚ

/-- `enum OrderSide { BID, ASK }`. -/
inductive OrderSide : Type where
  | BID : OrderSide
  | ASK : OrderSide
deriving DecidableEq, Repr

/-- `interface Order { price; size; total }`. -/
structure Order : Type where
  price : ℚ
  size : ℚ
  total : ℚ
deriving DecidableEq, Repr

/-- The book state: `levelsDeep`, `bids`, `asks`.  The source initialises
`levelsDeep = 25` (guarded class); it is a public, configurable field. -/
structure OrderBook : Type where
  levelsDeep : ℕ
  bids : List Order
  asks : List Order
deriving DecidableEq, Repr

/-- The side's stored sequence: `side === BID ? this.bids : this.asks`. -/
def sideOrders (side : OrderSide) (b : OrderBook) : List Order :=
  match side with
  | OrderSide.BID => b.bids
  | OrderSide.ASK => b.asks

/-- `mapOrder`: `{ price: feed[0], size: feed[1], total: 0 }`. -/
def mapOrder (feed : OrderFeed) : Order :=
  { price := feed.1, size := feed.2, total := 0 }

/-- `mapOrders`: `feed.map(this.mapOrder)`. -/
def mapOrders (feed : List OrderFeed) : List Order :=
  feed.map mapOrder

/-- In-place size overwrite `acc[updateIndex].size = order.size`,
as a positional list update. -/
def setSizeAt (sz : ℚ) : ℕ → List Order → List Order
  | _, [] => []
  | 0, o :: rest => { o with size := sz } :: rest
  | n + 1, o :: rest => o :: setSizeAt sz n rest

/-- `acc.splice(insertIndex, 0, order)`: insert at a position. -/
def insertAt (a : Order) : ℕ → List Order → List Order
  | 0, l => a :: l
  | _ + 1, [] => [a]
  | n + 1, x :: xs => x :: insertAt a n xs

/-- lodash `_sortedIndexBy(acc, order, o => -o.price)`: the lowest index at
which `order` can be inserted keeping the array sorted by the key `-price`
(ascending key = descending price), i.e. the first index whose element has
`-acc[i].price >= -order.price`, that is `acc[i].price <= order.price`;
the array length when there is none. -/
def sortedInsertIdx (l : List Order) (order : Order) : ℕ :=
  l.findIdx (fun o => decide (o.price ≤ order.price))

/-- One step of `upsert`'s reduce: `_findIndex(acc, o => o?.price === order.price)`;
on a hit, overwrite that element's `size`; on a miss, insert at the sorted
position given by `_sortedIndexBy`. -/
def upsertOne (acc : List Order) (order : Order) : List Order :=
  match acc.findIdx? (fun o => decide (o.price = order.price)) with
  | some i => setSizeAt order.size i acc
  | none => insertAt order (sortedInsertIdx acc order) acc

/-- `upsert(side)(newOrders)`: reduce `upsertOne` over the batch, starting
from the side's current stored sequence. -/
def upsert (side : OrderSide) (b : OrderBook) (newOrders : List Order) : List Order :=
  newOrders.foldl upsertOne (sideOrders side b)

/-- `filterEmptyOrders`: `orders.filter(o => o.size > 0)`. -/
def filterEmptyOrders (orders : List Order) : List Order :=
  orders.filter (fun o => decide (0 < o.size))

/-- The bid accumulation of `sumOrders` (a `reduce` from the head):
`total[0] = size[0]`, `total[i] = total[i-1] + size[i]`, with `acc` the
running total already accumulated before the current element. -/
def sumBidsAux (acc : ℚ) : List Order → List Order
  | [] => []
  | o :: rest => { o with total := acc + o.size } :: sumBidsAux (acc + o.size) rest

/-- The ask accumulation of `sumOrders` (a `reduceRight` from the tail):
`total[last] = size[last]`, `total[i] = total[i+1] + size[i]`. -/
def sumAsks : List Order → List Order
  | [] => []
  | o :: rest =>
    match sumAsks rest with
    | [] => [{ o with total := o.size }]
    | r :: rs => { o with total := r.total + o.size } :: r :: rs

/-- `sumOrders(side)`: recompute every `total` as the cumulative size from
the side's best price outward (bids from the head, asks from the tail). -/
def sumOrders (side : OrderSide) (orders : List Order) : List Order :=
  match side with
  | OrderSide.BID => sumBidsAux 0 orders
  | OrderSide.ASK => sumAsks orders

/-- `trimBook(side)`: bids keep `orders.slice(0, levelsDeep)`; asks keep
`orders.slice(-levelsDeep)`.  JavaScript's `slice(-0)` equals `slice(0)`
(the whole array), hence the explicit `n = 0` case for asks. -/
def trimBook (side : OrderSide) (n : ℕ) (orders : List Order) : List Order :=
  match side with
  | OrderSide.BID => orders.take n
  | OrderSide.ASK => if n = 0 then orders else orders.drop (orders.length - n)

/-- The per-side pipeline up to (and including) aggregation, before the
trim: `sumOrders(side) ∘ filterEmptyOrders ∘ upsert(side) ∘ mapOrders`. -/
def preTrim (side : OrderSide) (b : OrderBook) (feed : List OrderFeed) : List Order :=
  sumOrders side (filterEmptyOrders (upsert side b (mapOrders feed)))

/-- `commitOrders(side)`: replace the side's stored sequence. -/
def commitOrders (side : OrderSide) (orders : List Order) (b : OrderBook) : OrderBook :=
  match side with
  | OrderSide.BID => { b with bids := orders }
  | OrderSide.ASK => { b with asks := orders }

/-- `processOrders(feed, side)`: the full per-side pipeline
`mapOrders → upsert → filterEmptyOrders → sumOrders → trimBook → commitOrders`. -/
def processOrders (feed : List OrderFeed) (side : OrderSide) (b : OrderBook) : OrderBook :=
  commitOrders side (trimBook side b.levelsDeep (preTrim side b feed)) b

/-- `processFeed(bids, asks)`: apply the bid pipeline, then the ask pipeline. -/
def processFeed (bids asks : List OrderFeed) (b : OrderBook) : OrderBook :=
  processOrders asks OrderSide.ASK (processOrders bids OrderSide.BID b)

/-- The constructor `new OrderBook(bids, asks)`: `levelsDeep = 25`, empty
sides, then `processFeed(bids, asks)`. -/
def mkOrderBook (bids asks : List OrderFeed) : OrderBook :=
  processFeed bids asks { levelsDeep := 25, bids := [], asks := [] }

/-- Modelled from the spec: `round` from `../../formats` is not under `src/`;
the spec describes it as a numeric display-rounding utility used only for
display rounding of `spread` / `spreadPercent`.  Modelled as rounding to two
decimal places (a concrete display precision, exact on integer inputs). -/
def roundQ (q : ℚ) : ℚ :=
  ((round (q * 100) : ℤ) : ℚ) / 100

/-- JavaScript division, with `none` for the non-finite results `0/0 = NaN`
and `x/0 = ±Infinity`. -/
def jsDiv (a b : ℚ) : Option ℚ :=
  if b = 0 then none else some (a / b)

/-- `topAsk`: `last(this.asks)?.price || 0`. -/
def topAsk (b : OrderBook) : ℚ :=
  match b.asks.getLast? with
  | some o => o.price
  | none => 0

/-- `topBid`: `head(this.bids)?.price || 0`. -/
def topBid (b : OrderBook) : ℚ :=
  match b.bids.head? with
  | some o => o.price
  | none => 0

/-- `hasSpread`: both sides non-empty. -/
def hasSpread (b : OrderBook) : Bool :=
  decide (0 < b.bids.length) && decide (0 < b.asks.length)

/-- `spread`: `hasSpread() ? round(topAsk() - topBid()) : 0`. -/
def spread (b : OrderBook) : ℚ :=
  if hasSpread b then roundQ (topAsk b - topBid b) else 0

/-- `midPoint`: `topAsk() + topBid() / 2` (JavaScript precedence: the
division binds before the addition). -/
def midPoint (b : OrderBook) : ℚ :=
  topAsk b + topBid b / 2

/-- `spreadPercent`: `round((spread() / midPoint()) * 100) || 0`; a
non-finite division (modelled `none`) or a zero result falls back to `0`. -/
def spreadPercent (b : OrderBook) : ℚ :=
  match jsDiv (spread b) (midPoint b) with
  | some q => roundQ (q * 100)
  | none => 0

/-- `maxTotal`: `Math.max(head(this.asks)?.total || 0, last(this.bids)?.total || 0)`. -/
def maxTotal (b : OrderBook) : ℚ :=
  max (match b.asks.head? with | some o => o.total | none => 0)
      (match b.bids.getLast? with | some o => o.total | none => 0)

namespace Unguarded

/-!  Metric layer of the second (historical, unguarded) `OrderBook` class.
Its update pipeline is the same algorithm as the guarded class (with
`levelsDeep = 10`); only its metric accessors differ, and only those are
embedded here.  `undefined` values and the `NaN` they breed through
arithmetic are modelled by `none`. -/

/-- `highestBid`: `this.bids[0]?.price` (`undefined` on an empty side). -/
def highestBid (b : OrderBook) : Option ℚ :=
  b.bids.head?.map Order.price

/-- `lowestAsk`: `this.asks.slice(-1)[0]?.price` (`undefined` on an empty side). -/
def lowestAsk (b : OrderBook) : Option ℚ :=
  b.asks.getLast?.map Order.price

/-- Unguarded `spread`: `lowestAsk() - highestBid()`; `NaN` (`none`) if a
side is empty. -/
def spread (b : OrderBook) : Option ℚ :=
  match lowestAsk b, highestBid b with
  | some a, some bb => some (a - bb)
  | _, _ => none

/-- Unguarded `midPoint`: `lowestAsk() + highestBid() / 2`; `NaN` (`none`)
if a side is empty. -/
def midPoint (b : OrderBook) : Option ℚ :=
  match lowestAsk b, highestBid b with
  | some a, some bb => some (a + bb / 2)
  | _, _ => none

/-- Unguarded `spreadPercent`: `round((spread() / midPoint()) * 100)` with
no fallback; non-finite inputs propagate (`none`). -/
def spreadPercent (b : OrderBook) : Option ℚ :=
  match spread b, midPoint b with
  | some s, some m => (jsDiv s m).map (fun q => roundQ (q * 100))
  | _, _ => none

end Unguarded

/-! ## Helper notions and basic lemmas -/

/-- The `(price, size)` projection of a side: `total` is the derived field. -/
def priceSizes (l : List Order) : List (ℚ × ℚ) :=
  l.map (fun o => (o.price, o.size))

/-- Cumulative-total invariant, bid side: each `total` is the sum of `size`
from the head (the best, highest price) out to and including that level. -/
def cumOkBids (l : List Order) : Prop :=
  ∀ i (h : i < l.length), (l.get ⟨i, h⟩).total = ((l.take (i + 1)).map Order.size).sum

/-- Cumulative-total invariant, ask side: each `total` is the sum of `size`
from the tail (the best, lowest price) out to and including that level. -/
def cumOkAsks (l : List Order) : Prop :=
  ∀ i (h : i < l.length), (l.get ⟨i, h⟩).total = ((l.drop i).map Order.size).sum

/-- Strictly descending by price (the stored order of both sides). -/
def sortedDesc (l : List Order) : Prop :=
  l.Pairwise (fun a b => b.price < a.price)

/-- All sizes strictly positive (what `filterEmptyOrders` guarantees). -/
def posSizes (l : List Order) : Prop :=
  ∀ o ∈ l, 0 < o.size

theorem map_price_sumBidsAux (acc : ℚ) (l : List Order) :
    (sumBidsAux acc l).map Order.price = l.map Order.price := by
  induction l generalizing acc with
  | nil => rfl
  | cons o rest ih => simp [sumBidsAux, ih]

theorem map_size_sumBidsAux (acc : ℚ) (l : List Order) :
    (sumBidsAux acc l).map Order.size = l.map Order.size := by
  induction l generalizing acc with
  | nil => rfl
  | cons o rest ih => simp [sumBidsAux, ih]

theorem priceSizes_sumBidsAux (acc : ℚ) (l : List Order) :
    priceSizes (sumBidsAux acc l) = priceSizes l := by
  induction l generalizing acc with
  | nil => rfl
  | cons o rest ih => simp [sumBidsAux, priceSizes] at ih ⊢; exact ih _

theorem length_sumBidsAux (acc : ℚ) (l : List Order) :
    (sumBidsAux acc l).length = l.length := by
  have := congrArg List.length (map_price_sumBidsAux acc l)
  simpa using this

theorem sumAsks_cons (o : Order) (rest : List Order) :
    sumAsks (o :: rest) =
      { o with total := o.size + ((rest.map Order.size).sum) } :: sumAsks rest := by
  induction rest generalizing o with
  | nil => simp [sumAsks]
  | cons x xs ih =>
    rw [sumAsks, ih x]
    simp [ih x]
    ring

theorem map_price_sumAsks (l : List Order) :
    (sumAsks l).map Order.price = l.map Order.price := by
  induction l with
  | nil => rfl
  | cons o rest ih => rw [sumAsks_cons]; simp [ih]

theorem map_size_sumAsks (l : List Order) :
    (sumAsks l).map Order.size = l.map Order.size := by
  induction l with
  | nil => rfl
  | cons o rest ih => rw [sumAsks_cons]; simp [ih]

theorem priceSizes_sumAsks (l : List Order) :
    priceSizes (sumAsks l) = priceSizes l := by
  induction l with
  | nil => rfl
  | cons o rest ih => rw [sumAsks_cons]; simp [priceSizes] at ih ⊢; exact ih

theorem length_sumAsks (l : List Order) :
    (sumAsks l).length = l.length := by
  have := congrArg List.length (map_price_sumAsks l)
  simpa using this

theorem take_sumBidsAux (acc : ℚ) (l : List Order) (k : ℕ) :
    (sumBidsAux acc l).take k = sumBidsAux acc (l.take k) := by
  induction l generalizing acc k with
  | nil => simp [sumBidsAux]
  | cons o rest ih =>
    cases k with
    | zero => simp [sumBidsAux]
    | succ k => simp [sumBidsAux, ih]

theorem drop_sumAsks (l : List Order) (k : ℕ) :
    (sumAsks l).drop k = sumAsks (l.drop k) := by
  induction l generalizing k with
  | nil => simp [sumAsks]
  | cons o rest ih =>
    cases k with
    | zero => simp
    | succ k => rw [sumAsks_cons]; simp [ih]

theorem getElem?_sumBidsAux (acc : ℚ) (l : List Order) (i : ℕ) :
    (sumBidsAux acc l)[i]? =
      l[i]?.map (fun o => { o with total := acc + ((l.take (i + 1)).map Order.size).sum }) := by
  induction l generalizing acc i with
  | nil => simp [sumBidsAux]
  | cons o rest ih =>
    cases i with
    | zero => simp [sumBidsAux]
    | succ i =>
      simp only [sumBidsAux, List.getElem?_cons_succ, List.take_succ_cons,
        List.map_cons, List.sum_cons]
      rw [ih]
      cases hr : rest[i]? with
      | none => rfl
      | some x =>
        simp only [Option.map_some', Option.some.injEq]
        congr 1
        ring

theorem getElem?_sumAsks (l : List Order) (i : ℕ) :
    (sumAsks l)[i]? =
      l[i]?.map (fun o => { o with total := ((l.drop i).map Order.size).sum }) := by
  induction l generalizing i with
  | nil => simp [sumAsks]
  | cons o rest ih =>
    rw [sumAsks_cons]
    cases i with
    | zero => simp
    | succ i => simpa using ih i

theorem cumOkBids_sumBidsAux (l : List Order) : cumOkBids (sumBidsAux 0 l) := by
  intro i h
  have hl : i < l.length := by simpa [length_sumBidsAux] using h
  have h1 : (sumBidsAux 0 l)[i]? = some ((sumBidsAux 0 l).get ⟨i, h⟩) := by
    simp [List.getElem?_eq_getElem, List.get_eq_getElem]
  rw [getElem?_sumBidsAux, List.getElem?_eq_getElem hl, Option.map_some'] at h1
  have h2 := Option.some.inj h1
  rw [take_sumBidsAux, map_size_sumBidsAux, ← h2]
  simp

theorem cumOkAsks_sumAsks (l : List Order) : cumOkAsks (sumAsks l) := by
  intro i h
  have hl : i < l.length := by simpa [length_sumAsks] using h
  have h1 : (sumAsks l)[i]? = some ((sumAsks l).get ⟨i, h⟩) := by
    simp [List.getElem?_eq_getElem, List.get_eq_getElem]
  rw [getElem?_sumAsks, List.getElem?_eq_getElem hl, Option.map_some'] at h1
  have h2 := Option.some.inj h1
  rw [drop_sumAsks, map_size_sumAsks, ← h2]

/-- Aggregation commutes with the trim: totals of the kept levels are the
same whether the cumulative sum is computed before or after discarding the
levels farthest from the spread. -/
theorem trim_sum_comm (side : OrderSide) (n : ℕ) (l : List Order) :
    trimBook side n (sumOrders side l) = sumOrders side (trimBook side n l) := by
  cases side with
  | BID => simp [trimBook, sumOrders, take_sumBidsAux]
  | ASK =>
    by_cases hn : n = 0
    · simp [trimBook, sumOrders, hn]
    · simp only [trimBook, sumOrders, if_neg hn, length_sumAsks]
      exact drop_sumAsks l (l.length - n)

theorem bids_processOrders_ASK (feed : List OrderFeed) (b : OrderBook) :
    (processOrders feed OrderSide.ASK b).bids = b.bids := rfl

theorem asks_processOrders_BID (feed : List OrderFeed) (b : OrderBook) :
    (processOrders feed OrderSide.BID b).asks = b.asks := rfl

theorem levelsDeep_processOrders (feed : List OrderFeed) (side : OrderSide) (b : OrderBook) :
    (processOrders feed side b).levelsDeep = b.levelsDeep := by
  cases side <;> rfl

theorem bids_processFeed (fb fa : List OrderFeed) (b : OrderBook) :
    (processFeed fb fa b).bids = trimBook OrderSide.BID b.levelsDeep (preTrim OrderSide.BID b fb) := rfl

theorem asks_processFeed (fb fa : List OrderFeed) (b : OrderBook) :
    (processFeed fb fa b).asks =
      trimBook OrderSide.ASK b.levelsDeep
        (preTrim OrderSide.ASK (processOrders fb OrderSide.BID b) fa) := rfl

theorem levelsDeep_processFeed (fb fa : List OrderFeed) (b : OrderBook) :
    (processFeed fb fa b).levelsDeep = b.levelsDeep := rfl

/-- `sum_size_take_succ`: peeling the last element off a size prefix sum. -/
theorem sum_size_take_succ (l : List Order) :
    ∀ i (h : i < l.length),
      ((l.take (i + 1)).map Order.size).sum
        = ((l.take i).map Order.size).sum + (l.get ⟨i, h⟩).size := by
  induction l with
  | nil => intro i h; simp at h
  | cons a t ih =>
    intro i h
    cases i with
    | zero => simp
    | succ i =>
      have h' : i < t.length := by simpa using h
      simp only [List.take_succ_cons, List.map_cons, List.sum_cons, ih i h',
        List.get_cons_succ]
      ring

theorem cumOkBids_head (l : List Order) (hc : cumOkBids l) (h0 : 0 < l.length) :
    (l.get ⟨0, h0⟩).total = (l.get ⟨0, h0⟩).size := by
  have := hc 0 h0
  cases l with
  | nil => simp at h0
  | cons a t => simpa using this

theorem cumOkBids_step (l : List Order) (hc : cumOkBids l) (i : ℕ) (h : i + 1 < l.length) :
    (l.get ⟨i + 1, h⟩).total
      = (l.get ⟨i, Nat.lt_of_succ_lt h⟩).total + (l.get ⟨i + 1, h⟩).size := by
  rw [hc (i + 1) h, hc i (Nat.lt_of_succ_lt h), sum_size_take_succ l (i + 1) h]

theorem cumOkAsks_last (l : List Order) (hc : cumOkAsks l) (hne : l ≠ []) :
    (l.getLast hne).total = (l.getLast hne).size := by
  have hlt : l.length - 1 < l.length :=
    Nat.sub_lt (List.length_pos.mpr hne) Nat.one_pos
  have hlast : l.getLast hne = l.get ⟨l.length - 1, hlt⟩ := List.getLast_eq_getElem l hne
  have := hc (l.length - 1) hlt
  rw [List.drop_eq_getElem_cons hlt] at this
  have hdrop : l.drop (l.length - 1 + 1) = [] := by
    have : l.length ≤ l.length - 1 + 1 := by omega
    exact List.drop_eq_nil_of_le this
  rw [hdrop] at this
  simp at this
  rw [hlast]
  simpa [List.get_eq_getElem] using this

theorem cumOkAsks_step (l : List Order) (hc : cumOkAsks l) (i : ℕ) (h : i + 1 < l.length) :
    (l.get ⟨i, Nat.lt_of_succ_lt h⟩).total
      = (l.get ⟨i + 1, h⟩).total + (l.get ⟨i, Nat.lt_of_succ_lt h⟩).size := by
  have hi : i < l.length := Nat.lt_of_succ_lt h
  have h1 := hc i hi
  have h2 := hc (i + 1) h
  rw [List.drop_eq_getElem_cons hi] at h1
  simp only [List.map_cons, List.sum_cons] at h1
  rw [h1, h2]
  simp [List.get_eq_getElem, add_comm]

/-- The concrete bid-side recurrence of the invariant:
`total[0] = size[0]`, `total[i] = total[i-1] + size[i]` (index 0 = best). -/
def bidRecurrence (l : List Order) : Prop :=
  (∀ h0 : 0 < l.length, (l.get ⟨0, h0⟩).total = (l.get ⟨0, h0⟩).size) ∧
  ∀ i (h : i + 1 < l.length),
    (l.get ⟨i + 1, h⟩).total
      = (l.get ⟨i, Nat.lt_of_succ_lt h⟩).total + (l.get ⟨i + 1, h⟩).size

/-- The concrete ask-side recurrence of the invariant:
`total[last] = size[last]`, `total[i] = total[i+1] + size[i]` (last = best). -/
def askRecurrence (l : List Order) : Prop :=
  (∀ hne : l ≠ [], (l.getLast hne).total = (l.getLast hne).size) ∧
  ∀ i (h : i + 1 < l.length),
    (l.get ⟨i, Nat.lt_of_succ_lt h⟩).total
      = (l.get ⟨i + 1, h⟩).total + (l.get ⟨i, Nat.lt_of_succ_lt h⟩).size

theorem bidRecurrence_of_cumOk (l : List Order) (hc : cumOkBids l) : bidRecurrence l :=
  ⟨cumOkBids_head l hc, cumOkBids_step l hc⟩

theorem askRecurrence_of_cumOk (l : List Order) (hc : cumOkAsks l) : askRecurrence l :=
  ⟨cumOkAsks_last l hc, cumOkAsks_step l hc⟩

theorem cumOkBids_trim_preTrim (b : OrderBook) (feed : List OrderFeed) (n : ℕ) :
    cumOkBids (trimBook OrderSide.BID n (preTrim OrderSide.BID b feed)) := by
  rw [preTrim, trim_sum_comm]
  exact cumOkBids_sumBidsAux _

theorem cumOkAsks_trim_preTrim (b : OrderBook) (feed : List OrderFeed) (n : ℕ) :
    cumOkAsks (trimBook OrderSide.ASK n (preTrim OrderSide.ASK b feed)) := by
  rw [preTrim, trim_sum_comm]
  exact cumOkAsks_sumAsks _

/-- **C1** Cumulative-total invariant: after every applied update batch, for
every level on each side, `total` equals the sum of `size` from that side's
best price out to and including that level (for bids, the sum over the
prefix from index 0; for asks, the sum over the suffix down to the last
index), and concretely the totals satisfy the stated recurrences:
bids `total[0] = size[0]`, `total[i] = total[i-1] + size[i]`;
asks `total[last] = size[last]`, `total[i] = total[i+1] + size[i]`. -/
theorem cumulative_total_invariant_processFeed (b : OrderBook) (fb fa : List OrderFeed) :
    cumOkBids (processFeed fb fa b).bids ∧ cumOkAsks (processFeed fb fa b).asks ∧
    bidRecurrence (processFeed fb fa b).bids ∧ askRecurrence (processFeed fb fa b).asks := by
  have hb : cumOkBids (processFeed fb fa b).bids := by
    rw [bids_processFeed]
    exact cumOkBids_trim_preTrim b fb b.levelsDeep
  have ha : cumOkAsks (processFeed fb fa b).asks := by
    rw [asks_processFeed]
    exact cumOkAsks_trim_preTrim _ fa b.levelsDeep
  exact ⟨hb, ha, bidRecurrence_of_cumOk _ hb, askRecurrence_of_cumOk _ ha⟩

/-- Witness for C1: the invariant instantiated on the concrete Scenario A
book built from an empty book via `processFeed`. -/
theorem cumulative_total_invariant_processFeed_witness :
    cumOkBids (mkOrderBook [(100,5),(99,3)] [(101,4),(102,2)]).bids ∧
    cumOkAsks (mkOrderBook [(100,5),(99,3)] [(101,4),(102,2)]).asks :=
  ⟨(cumulative_total_invariant_processFeed { levelsDeep := 25, bids := [], asks := [] }
      [(100,5),(99,3)] [(101,4),(102,2)]).1,
   (cumulative_total_invariant_processFeed { levelsDeep := 25, bids := [], asks := [] }
      [(100,5),(99,3)] [(101,4),(102,2)]).2.1⟩

/-- **C2 counterexample** Scenario A as stated is false: the ask totals
accumulate from the tail (best ask) outward, so the committed asks are
`[{102,2,6},{101,4,4}]`, not `[{102,2,2},{101,4,6}]` as the claim states. -/
theorem scenarioA_as_specified_false :
    ¬ ((mkOrderBook [(100,5),(99,3)] [(101,4),(102,2)]).bids = [⟨100,5,5⟩, ⟨99,3,8⟩] ∧
       (mkOrderBook [(100,5),(99,3)] [(101,4),(102,2)]).asks = [⟨102,2,2⟩, ⟨101,4,6⟩] ∧
       topBid (mkOrderBook [(100,5),(99,3)] [(101,4),(102,2)]) = 100 ∧
       topAsk (mkOrderBook [(100,5),(99,3)] [(101,4),(102,2)]) = 101 ∧
       spread (mkOrderBook [(100,5),(99,3)] [(101,4),(102,2)]) = 1) := by
  intro hcl
  have := hcl.2.1
  norm_num [mkOrderBook, processFeed, processOrders, preTrim, commitOrders, trimBook,
    sumOrders, sumAsks, sumBidsAux, filterEmptyOrders, upsert, sideOrders, upsertOne,
    setSizeAt, insertAt, sortedInsertIdx, mapOrders, mapOrder, List.findIdx?, List.findIdx,
    List.findIdx.go] at this

/-- **C2 amended** Scenario A with the ask totals the code computes:
starting from an empty book, bids `[[100,5],[99,3]]` and asks
`[[101,4],[102,2]]` yield bids `[{100,5,5},{99,3,8}]`, asks
`[{102,2,6},{101,4,4}]`, best bid 100, best ask 101, spread 1. -/
theorem scenarioA_corrected :
    (mkOrderBook [(100,5),(99,3)] [(101,4),(102,2)]).bids = [⟨100,5,5⟩, ⟨99,3,8⟩] ∧
    (mkOrderBook [(100,5),(99,3)] [(101,4),(102,2)]).asks = [⟨102,2,6⟩, ⟨101,4,4⟩] ∧
    topBid (mkOrderBook [(100,5),(99,3)] [(101,4),(102,2)]) = 100 ∧
    topAsk (mkOrderBook [(100,5),(99,3)] [(101,4),(102,2)]) = 101 ∧
    spread (mkOrderBook [(100,5),(99,3)] [(101,4),(102,2)]) = 1 := by
  norm_num [mkOrderBook, processFeed, processOrders, preTrim, commitOrders, trimBook,
    sumOrders, sumAsks, sumBidsAux, filterEmptyOrders, upsert, sideOrders, upsertOne,
    setSizeAt, insertAt, sortedInsertIdx, mapOrders, mapOrder, List.findIdx?, List.findIdx,
    List.findIdx.go, topBid, topAsk, spread, hasSpread, roundQ, round_eq]

/-- **C3 counterexample** With `levelsDeep = 1` and bid batch
`[[100,5],[99,3]]` on an empty book, the batch leaves 2 > 1 aggregated
levels; the kept level `{100,5,5}` has `total = 5`, exactly the sum of the
kept sizes alone, while the discarded deeper level's size is 3 — had the
discarded size contributed, the total would be `5 + 3`; so a kept level's
total does NOT reflect volume from levels dropped beyond the depth cutoff. -/
theorem trimmed_levels_do_not_contribute_cex :
    (1:ℕ) < (preTrim OrderSide.BID { levelsDeep := 1, bids := [], asks := [] }
        [(100,5),(99,3)]).length ∧
    (processFeed [(100,5),(99,3)] [] { levelsDeep := 1, bids := [], asks := [] }).bids
      = [⟨100,5,5⟩] ∧
    ((preTrim OrderSide.BID { levelsDeep := 1, bids := [], asks := [] }
        [(100,5),(99,3)]).drop 1).map Order.size = [3] ∧
    ¬ ((5:ℚ) = 5 + 3) := by
  norm_num [mkOrderBook, processFeed, processOrders, preTrim, commitOrders, trimBook,
    sumOrders, sumAsks, sumBidsAux, filterEmptyOrders, upsert, sideOrders, upsertOne,
    setSizeAt, insertAt, sortedInsertIdx, mapOrders, mapOrder, List.findIdx?, List.findIdx,
    List.findIdx.go]

/-- **C3 amended** Because the cumulative totals run from the best price
outward and the trim discards the levels farthest from the spread,
aggregating before trimming yields exactly the totals of aggregating after
trimming: the discarded levels' sizes do not contribute to any kept level's
total.  Stated both for the pipeline's trimmed output and in general. -/
theorem aggregate_then_trim_totals (side : OrderSide) (b : OrderBook) (feed : List OrderFeed) :
    trimBook side b.levelsDeep (preTrim side b feed)
      = sumOrders side (trimBook side b.levelsDeep
          (filterEmptyOrders (upsert side b (mapOrders feed)))) ∧
    ∀ (n : ℕ) (l : List Order),
      trimBook side n (sumOrders side l) = sumOrders side (trimBook side n l) :=
  ⟨trim_sum_comm side b.levelsDeep _, fun n l => trim_sum_comm side n l⟩

/-- **C5** Depth bound: with a positive configured depth, after every update
batch applied via `processFeed` each side holds at most `levelsDeep` levels,
and the trim keeps the first `levelsDeep` entries for bids (the highest
prices) and the last `levelsDeep` entries for asks (the lowest prices). -/
theorem depth_bound_processFeed (b : OrderBook) (fb fa : List OrderFeed)
    (h : 1 ≤ b.levelsDeep) :
    (processFeed fb fa b).bids.length ≤ b.levelsDeep ∧
    (processFeed fb fa b).asks.length ≤ b.levelsDeep ∧
    (∀ l : List Order, trimBook OrderSide.BID b.levelsDeep l = l.take b.levelsDeep) ∧
    (∀ l : List Order, trimBook OrderSide.ASK b.levelsDeep l
        = l.drop (l.length - b.levelsDeep)) := by
  have hn : b.levelsDeep ≠ 0 := by omega
  refine ⟨?_, ?_, fun l => rfl, fun l => by simp [trimBook, hn]⟩
  · rw [bids_processFeed]
    simp [trimBook]
  · rw [asks_processFeed]
    simp only [trimBook, if_neg hn]
    rw [List.length_drop]
    omega

/-- Witness for C5 at `levelsDeep = 1` and the Scenario A batches. -/
theorem depth_bound_processFeed_witness :
    1 ≤ (1:ℕ) ∧
    (processFeed [(100,5),(99,3)] [(101,4),(102,2)]
        { levelsDeep := 1, bids := [], asks := [] }).bids.length ≤ 1 ∧
    (processFeed [(100,5),(99,3)] [(101,4),(102,2)]
        { levelsDeep := 1, bids := [], asks := [] }).asks.length ≤ 1 :=
  ⟨le_refl 1,
   (depth_bound_processFeed { levelsDeep := 1, bids := [], asks := [] }
      [(100,5),(99,3)] [(101,4),(102,2)] (le_refl 1)).1,
   (depth_bound_processFeed { levelsDeep := 1, bids := [], asks := [] }
      [(100,5),(99,3)] [(101,4),(102,2)] (le_refl 1)).2.1⟩

/-- **C8 counterexample** The claim fails for the second (historical,
unguarded) `OrderBook` class also present in the source: with a non-empty
bid side and an empty ask side, its `spread()` and `spreadPercent()` are
`undefined - x = NaN` (modelled `none`), not the sentinel `0`. -/
theorem unguarded_empty_side_metrics_cex :
    Unguarded.spread { levelsDeep := 10, bids := [⟨100,5,5⟩], asks := [] } = none ∧
    Unguarded.spread { levelsDeep := 10, bids := [⟨100,5,5⟩], asks := [] } ≠ some 0 ∧
    Unguarded.spreadPercent { levelsDeep := 10, bids := [⟨100,5,5⟩], asks := [] } = none ∧
    Unguarded.spreadPercent { levelsDeep := 10, bids := [⟨100,5,5⟩], asks := [] } ≠ some 0 := by
  refine ⟨rfl, ?_, rfl, ?_⟩ <;> simp [Unguarded.spread, Unguarded.spreadPercent,
    Unguarded.midPoint, Unguarded.lowestAsk, Unguarded.highestBid]

/-- **C8 amended** For the guarded (canonical) `OrderBook` class: whenever
either side of the book is empty, `spread()` and `spreadPercent()` return
the defined sentinel `0` (never a non-finite value — every non-finite
intermediate is absorbed by the guards). -/
theorem guarded_empty_side_metrics (b : OrderBook) (h : b.bids = [] ∨ b.asks = []) :
    spread b = 0 ∧ spreadPercent b = 0 := by
  have hs : hasSpread b = false := by
    cases h with
    | inl h => simp [hasSpread, h]
    | inr h => simp [hasSpread, h]
  have hsp : spread b = 0 := by simp [spread, hs]
  refine ⟨hsp, ?_⟩
  unfold spreadPercent jsDiv
  rw [hsp]
  by_cases hm : midPoint b = 0
  · simp [hm]
  · simp [hm, roundQ]

/-- Witness for C8's amended claim: a concrete non-empty-bid, empty-ask book. -/
theorem guarded_empty_side_metrics_witness :
    ({ levelsDeep := 25, bids := [⟨100,5,5⟩], asks := [] } : OrderBook).asks = [] ∧
    spread { levelsDeep := 25, bids := [⟨100,5,5⟩], asks := [] } = 0 ∧
    spreadPercent { levelsDeep := 25, bids := [⟨100,5,5⟩], asks := [] } = 0 :=
  ⟨rfl,
   (guarded_empty_side_metrics { levelsDeep := 25, bids := [⟨100,5,5⟩], asks := [] }
      (Or.inr rfl)).1,
   (guarded_empty_side_metrics { levelsDeep := 25, bids := [⟨100,5,5⟩], asks := [] }
      (Or.inr rfl)).2⟩

/-- **C9** `midPoint()` computes the literal source formula
`bestAsk + bestBid / 2` — i.e. `bestAsk + (bestBid / 2)`, not the textbook
average — on every book with both sides non-empty; likewise the unguarded
class's `midPoint`.  (`bestAsk` is the last ask's price, `bestBid` the
first bid's price.) -/
theorem midPoint_literal_formula (b : OrderBook) (hb : b.bids ≠ []) (ha : b.asks ≠ []) :
    midPoint b = (b.asks.getLast ha).price + (b.bids.head hb).price / 2 ∧
    Unguarded.midPoint b
      = some ((b.asks.getLast ha).price + (b.bids.head hb).price / 2) := by
  have h1 : b.asks.getLast? = some (b.asks.getLast ha) := List.getLast?_eq_getLast _ ha
  have h2 : b.bids.head? = some (b.bids.head hb) := List.head?_eq_head hb
  constructor
  · rw [midPoint, topAsk, topBid, h1, h2]
  · rw [Unguarded.midPoint, Unguarded.lowestAsk, Unguarded.highestBid, h1, h2]
    rfl

/-- Witness for C9: best ask 101, best bid 100 give
`midPoint = 101 + 100 / 2 = 151`, not the textbook `100.5`. -/
theorem midPoint_literal_formula_witness :
    ({ levelsDeep := 25, bids := [⟨100,5,5⟩], asks := [⟨101,4,4⟩] } : OrderBook).bids ≠ [] ∧
    midPoint { levelsDeep := 25, bids := [⟨100,5,5⟩], asks := [⟨101,4,4⟩] } = 101 + 100 / 2 := by
  constructor
  · simp
  · have := (midPoint_literal_formula
      { levelsDeep := 25, bids := [⟨100,5,5⟩], asks := [⟨101,4,4⟩] }
      (by simp) (by simp)).1
    simpa using this

theorem mem_insertAt (a : Order) :
    ∀ (n : ℕ) (l : List Order) (y : Order), y ∈ insertAt a n l ↔ y = a ∨ y ∈ l := by
  intro n
  induction n with
  | zero => intro l y; simp [insertAt]
  | succ n ih =>
    intro l y
    cases l with
    | nil => simp [insertAt]
    | cons x xs =>
      simp only [insertAt, List.mem_cons, ih xs y]
      tauto

theorem sortedDesc_insertAt_sortedInsertIdx (l : List Order) (o : Order)
    (hs : sortedDesc l) (hne : ∀ x ∈ l, x.price ≠ o.price) :
    sortedDesc (insertAt o (sortedInsertIdx l o) l) := by
  induction l with
  | nil => simp [sortedDesc, sortedInsertIdx, insertAt]
  | cons x xs ih =>
    rw [sortedDesc, List.pairwise_cons] at hs
    rw [sortedInsertIdx, List.findIdx_cons]
    by_cases hx : x.price ≤ o.price
    · have hxlt : x.price < o.price := lt_of_le_of_ne hx (hne x (by simp))
      simp only [decide_eq_true hx, cond_true, insertAt]
      rw [sortedDesc, List.pairwise_cons]
      constructor
      · intro y hy
        rcases List.mem_cons.mp hy with rfl | hy
        · exact hxlt
        · exact lt_trans (hs.1 y hy) hxlt
      · exact List.pairwise_cons.mpr hs
    · simp only [decide_eq_false hx, cond_false, insertAt]
      rw [sortedDesc, List.pairwise_cons]
      constructor
      · intro y hy
        rcases (mem_insertAt o _ xs y).mp hy with rfl | hy
        · exact lt_of_not_le hx
        · exact hs.1 y hy
      · exact ih hs.2 (fun z hz => hne z (by simp [hz]))

theorem map_price_setSizeAt (sz : ℚ) :
    ∀ (i : ℕ) (l : List Order), (setSizeAt sz i l).map Order.price = l.map Order.price := by
  intro i
  induction i with
  | zero => intro l; cases l <;> simp [setSizeAt]
  | succ i ih => intro l; cases l <;> simp [setSizeAt, ih]

theorem sortedDesc_iff_map (l : List Order) :
    sortedDesc l ↔ (l.map Order.price).Pairwise (fun a b => b < a) := by
  rw [sortedDesc, List.pairwise_map]

theorem sortedDesc_of_map_price_eq (l₁ l₂ : List Order)
    (h : l₁.map Order.price = l₂.map Order.price) (hs : sortedDesc l₁) : sortedDesc l₂ := by
  rw [sortedDesc_iff_map] at hs ⊢
  rwa [h] at hs

theorem sortedDesc_upsertOne (acc : List Order) (o : Order) (hs : sortedDesc acc) :
    sortedDesc (upsertOne acc o) := by
  rw [upsertOne]
  cases h : acc.findIdx? (fun x => decide (x.price = o.price)) with
  | some i =>
    exact sortedDesc_of_map_price_eq acc _ (map_price_setSizeAt o.size i acc).symm hs
  | none =>
    have hne : ∀ x ∈ acc, x.price ≠ o.price := by
      intro x hx
      have := List.findIdx?_eq_none_iff.mp h x hx
      simpa using this
    exact sortedDesc_insertAt_sortedInsertIdx acc o hs hne

theorem sortedDesc_foldl_upsertOne (batch : List Order) :
    ∀ acc : List Order, sortedDesc acc → sortedDesc (batch.foldl upsertOne acc) := by
  induction batch with
  | nil => intro acc hs; exact hs
  | cons o rest ih =>
    intro acc hs
    exact ih (upsertOne acc o) (sortedDesc_upsertOne acc o hs)

theorem sortedDesc_upsert (side : OrderSide) (b : OrderBook) (batch : List Order)
    (hs : sortedDesc (sideOrders side b)) : sortedDesc (upsert side b batch) :=
  sortedDesc_foldl_upsertOne batch _ hs

theorem sortedDesc_filterEmptyOrders (l : List Order) (hs : sortedDesc l) :
    sortedDesc (filterEmptyOrders l) :=
  List.Pairwise.sublist (List.filter_sublist l) hs

theorem sortedDesc_sumOrders (side : OrderSide) (l : List Order) (hs : sortedDesc l) :
    sortedDesc (sumOrders side l) := by
  cases side with
  | BID => exact sortedDesc_of_map_price_eq l _ (map_price_sumBidsAux 0 l).symm hs
  | ASK => exact sortedDesc_of_map_price_eq l _ (map_price_sumAsks l).symm hs

theorem sortedDesc_trimBook (side : OrderSide) (n : ℕ) (l : List Order) (hs : sortedDesc l) :
    sortedDesc (trimBook side n l) := by
  cases side with
  | BID => exact List.Pairwise.sublist (List.take_sublist n l) hs
  | ASK =>
    by_cases hn : n = 0
    · simpa [trimBook, hn] using hs
    · simp only [trimBook, if_neg hn]
      exact List.Pairwise.sublist (List.drop_sublist _ l) hs

theorem sortedDesc_pipeline (side : OrderSide) (b : OrderBook) (feed : List OrderFeed)
    (hs : sortedDesc (sideOrders side b)) :
    sortedDesc (trimBook side b.levelsDeep (preTrim side b feed)) :=
  sortedDesc_trimBook _ _ _
    (sortedDesc_sumOrders _ _
      (sortedDesc_filterEmptyOrders _ (sortedDesc_upsert side b (mapOrders feed) hs)))

theorem nodup_prices_of_sortedDesc (l : List Order) (hs : sortedDesc l) :
    (l.map Order.price).Nodup := by
  rw [sortedDesc_iff_map] at hs
  exact hs.imp (fun hlt => (ne_of_gt hlt))

theorem getLast_price_min (l : List Order) (hs : sortedDesc l) (hne : l ≠ []) :
    ∀ o ∈ l, (l.getLast hne).price ≤ o.price := by
  induction l with
  | nil => exact absurd rfl hne
  | cons x xs ih =>
    rw [sortedDesc, List.pairwise_cons] at hs
    intro o ho
    cases xs with
    | nil =>
      rcases List.mem_singleton.mp ho with rfl
      simp [List.getLast]
    | cons y ys =>
      rw [List.getLast_cons (by simp)]
      rcases List.mem_cons.mp ho with rfl | ho
      · exact le_of_lt (hs.1 _ (List.getLast_mem _))
      · exact ih hs.2 (by simp) o ho

/-- **C4** Sortedness and uniqueness: after any update batch applied via
`processFeed` to a book whose sides were already strictly descending by
price, both sides are strictly descending by price, hence no side contains
two levels with equal price, and the best (lowest-price) ask is at the
tail. -/
theorem sortedness_uniqueness_processFeed (b : OrderBook) (fb fa : List OrderFeed)
    (hb : sortedDesc b.bids) (ha : sortedDesc b.asks) :
    sortedDesc (processFeed fb fa b).bids ∧ sortedDesc (processFeed fb fa b).asks ∧
    ((processFeed fb fa b).bids.map Order.price).Nodup ∧
    ((processFeed fb fa b).asks.map Order.price).Nodup ∧
    ∀ (hne : (processFeed fb fa b).asks ≠ []) (o : Order), o ∈ (processFeed fb fa b).asks →
      ((processFeed fb fa b).asks.getLast hne).price ≤ o.price := by
  have hb2 : sortedDesc (processFeed fb fa b).bids := by
    rw [bids_processFeed]
    exact sortedDesc_pipeline OrderSide.BID b fb hb
  have ha2 : sortedDesc (processFeed fb fa b).asks := by
    have h1 : sortedDesc (sideOrders OrderSide.ASK (processOrders fb OrderSide.BID b)) := by
      simpa [sideOrders, asks_processOrders_BID] using ha
    exact sortedDesc_pipeline OrderSide.ASK (processOrders fb OrderSide.BID b) fa h1
  exact ⟨hb2, ha2, nodup_prices_of_sortedDesc _ hb2, nodup_prices_of_sortedDesc _ ha2,
    fun hne o ho => getLast_price_min _ ha2 hne o ho⟩

/-- Witness for C4: applying the Scenario A batches to the empty book
(whose sides are trivially strictly descending). -/
theorem sortedness_uniqueness_processFeed_witness :
    sortedDesc ({ levelsDeep := 25, bids := [], asks := [] } : OrderBook).bids ∧
    sortedDesc (mkOrderBook [(100,5),(99,3)] [(101,4),(102,2)]).bids ∧
    sortedDesc (mkOrderBook [(100,5),(99,3)] [(101,4),(102,2)]).asks :=
  ⟨List.Pairwise.nil,
   (sortedness_uniqueness_processFeed { levelsDeep := 25, bids := [], asks := [] }
      [(100,5),(99,3)] [(101,4),(102,2)] List.Pairwise.nil List.Pairwise.nil).1,
   (sortedness_uniqueness_processFeed { levelsDeep := 25, bids := [], asks := [] }
      [(100,5),(99,3)] [(101,4),(102,2)] List.Pairwise.nil List.Pairwise.nil).2.1⟩

/-! ## Identity behaviour of the pipeline stages on committed states -/

theorem upsert_nil_batch (side : OrderSide) (b : OrderBook) :
    upsert side b [] = sideOrders side b := rfl

theorem upsert_singleton (side : OrderSide) (b : OrderBook) (o : Order) :
    upsert side b [o] = upsertOne (sideOrders side b) o := rfl

theorem filterEmptyOrders_eq_self (l : List Order) (hpos : posSizes l) :
    filterEmptyOrders l = l := by
  rw [filterEmptyOrders, List.filter_eq_self]
  intro o ho
  simpa using hpos o ho

theorem filter_ne_price_eq_self (l : List Order) (p : ℚ) (h : ∀ o ∈ l, o.price ≠ p) :
    l.filter (fun o => decide (¬ o.price = p)) = l := by
  rw [List.filter_eq_self]
  intro o ho
  simpa using h o ho

theorem filterEmptyOrders_insertAt_zero (o : Order) (ho : o.size = 0) :
    ∀ (j : ℕ) (l : List Order),
      filterEmptyOrders (insertAt o j l) = filterEmptyOrders l := by
  intro j
  induction j with
  | zero =>
    intro l
    simp [insertAt, filterEmptyOrders, ho]
  | succ j ih =>
    intro l
    cases l with
    | nil => simp [insertAt, filterEmptyOrders, ho]
    | cons x xs =>
      simp only [insertAt, filterEmptyOrders, List.filter_cons]
      by_cases hx : (0:ℚ) < x.size
      · simp only [hx, decide_eq_true hx, cond_true]
        have := ih xs
        simp only [filterEmptyOrders] at this
        rw [this]
      · simp only [decide_eq_false hx, cond_false]
        have := ih xs
        simp only [filterEmptyOrders] at this
        rw [this]

theorem sumBids_eq_self_of_cumOk (l : List Order) (hc : cumOkBids l) :
    sumBidsAux 0 l = l := by
  apply List.ext_getElem?
  intro i
  rw [getElem?_sumBidsAux]
  by_cases h : i < l.length
  · rw [List.getElem?_eq_getElem h, Option.map_some']
    have h3 := hc i h
    rw [List.get_eq_getElem] at h3
    rw [zero_add, ← h3]
  · rw [List.getElem?_eq_none (le_of_not_lt h), Option.map_none']

theorem sumAsks_eq_self_of_cumOk (l : List Order) (hc : cumOkAsks l) :
    sumAsks l = l := by
  apply List.ext_getElem?
  intro i
  rw [getElem?_sumAsks]
  by_cases h : i < l.length
  · rw [List.getElem?_eq_getElem h, Option.map_some']
    have h3 := hc i h
    rw [List.get_eq_getElem] at h3
    rw [← h3]
  · rw [List.getElem?_eq_none (le_of_not_lt h), Option.map_none']

theorem trimBook_BID_of_le (n : ℕ) (l : List Order) (h : l.length ≤ n) :
    trimBook OrderSide.BID n l = l :=
  List.take_of_length_le h

theorem trimBook_ASK_of_le (n : ℕ) (l : List Order) (h : l.length ≤ n) :
    trimBook OrderSide.ASK n l = l := by
  by_cases hn : n = 0
  · simp [trimBook, hn]
  · simp only [trimBook, if_neg hn]
    have : l.length - n = 0 := by omega
    rw [this, List.drop_zero]

/-- Identity of one whole per-side pipeline pass with an empty batch, on a
side satisfying the committed-state invariants. -/
theorem preTrim_nil_BID (b : OrderBook) (hpos : posSizes b.bids) (hc : cumOkBids b.bids) :
    preTrim OrderSide.BID b [] = b.bids := by
  rw [preTrim, mapOrders, List.map_nil, upsert_nil_batch, sideOrders,
    filterEmptyOrders_eq_self _ hpos, sumOrders]
  exact sumBids_eq_self_of_cumOk _ hc

theorem preTrim_nil_ASK (b : OrderBook) (hpos : posSizes b.asks) (hc : cumOkAsks b.asks) :
    preTrim OrderSide.ASK b [] = b.asks := by
  rw [preTrim, mapOrders, List.map_nil, upsert_nil_batch, sideOrders,
    filterEmptyOrders_eq_self _ hpos, sumOrders]
  exact sumAsks_eq_self_of_cumOk _ hc

/-- **C10 counterexample** The claim as stated (with only the sortedness,
uniqueness, positive-size and cumulative-total invariants assumed) is
false: on a book whose ask side is deeper than `levelsDeep`, even a
bids-only call runs the full ask pipeline with an empty batch and the trim
shortens the asks.  Here `levelsDeep = 1` and the asks
`[{2,1,2},{1,1,1}]` satisfy all four invariants, yet
`processFeed([[3,5]], [])` rewrites the asks to `[{1,1,1}]`. -/
theorem side_isolation_cex :
    sortedDesc ({ levelsDeep := 1, bids := [], asks := [⟨2,1,2⟩, ⟨1,1,1⟩] } : OrderBook).asks ∧
    posSizes ({ levelsDeep := 1, bids := [], asks := [⟨2,1,2⟩, ⟨1,1,1⟩] } : OrderBook).asks ∧
    cumOkAsks ({ levelsDeep := 1, bids := [], asks := [⟨2,1,2⟩, ⟨1,1,1⟩] } : OrderBook).asks ∧
    sortedDesc ({ levelsDeep := 1, bids := [], asks := [⟨2,1,2⟩, ⟨1,1,1⟩] } : OrderBook).bids ∧
    posSizes ({ levelsDeep := 1, bids := [], asks := [⟨2,1,2⟩, ⟨1,1,1⟩] } : OrderBook).bids ∧
    cumOkBids ({ levelsDeep := 1, bids := [], asks := [⟨2,1,2⟩, ⟨1,1,1⟩] } : OrderBook).bids ∧
    (processFeed [(3,5)] [] { levelsDeep := 1, bids := [], asks := [⟨2,1,2⟩, ⟨1,1,1⟩] }).asks
      ≠ ({ levelsDeep := 1, bids := [], asks := [⟨2,1,2⟩, ⟨1,1,1⟩] } : OrderBook).asks := by
  refine ⟨?_, ?_, ?_, ?_, ?_, ?_, ?_⟩
  · rw [sortedDesc]
    refine List.pairwise_cons.mpr ⟨?_, ?_⟩
    · intro o ho
      rcases List.mem_singleton.mp ho with rfl
      norm_num
    · simp
  · intro o ho
    rcases List.mem_cons.mp ho with rfl | ho
    · norm_num
    · rcases List.mem_singleton.mp ho with rfl
      norm_num
  · intro i h
    simp only [List.length_cons, List.length_nil] at h
    interval_cases i
    · norm_num [List.get]
    · norm_num [List.get]
  · simp [sortedDesc]
  · intro o ho
    simp at ho
  · intro i h
    simp at h
  · intro hcontra
    have := congrArg List.length hcontra
    norm_num [processFeed, processOrders, preTrim, commitOrders, trimBook,
      sumOrders, sumAsks, sumBidsAux, filterEmptyOrders, upsert, sideOrders, upsertOne,
      setSizeAt, insertAt, sortedInsertIdx, mapOrders, mapOrder, List.findIdx?, List.findIdx,
      List.findIdx.go] at this

/-- **C10 amended** Side isolation (frame) holds once the depth-bound
invariant `length ≤ levelsDeep` — true of every committed state — is added
to the assumed invariants: a bids-only `processFeed(fb, [])` leaves the
asks unchanged element-wise and an asks-only `processFeed([], fa)` leaves
the bids unchanged element-wise. -/
theorem side_isolation_amended (b : OrderBook) (fb fa : List OrderFeed)
    (hbs : sortedDesc b.bids) (hbp : posSizes b.bids) (hbc : cumOkBids b.bids)
    (hbl : b.bids.length ≤ b.levelsDeep)
    (has : sortedDesc b.asks) (hap : posSizes b.asks) (hac : cumOkAsks b.asks)
    (hal : b.asks.length ≤ b.levelsDeep) :
    (processFeed fb [] b).asks = b.asks ∧ (processFeed [] fa b).bids = b.bids := by
  constructor
  · rw [asks_processFeed]
    have h1 : preTrim OrderSide.ASK (processOrders fb OrderSide.BID b) [] = b.asks := by
      apply preTrim_nil_ASK <;> rw [asks_processOrders_BID]
      · exact hap
      · exact hac
    rw [h1]
    exact trimBook_ASK_of_le _ _ hal
  · rw [bids_processFeed]
    rw [preTrim_nil_BID b hbp hbc]
    exact trimBook_BID_of_le _ _ hbl

/-- Witness for C10's amended claim on a concrete one-level book. -/
theorem side_isolation_amended_witness :
    (processFeed [(3,5)] []
        { levelsDeep := 25, bids := [], asks := [⟨2,1,2⟩, ⟨1,1,1⟩] }).asks
      = [⟨2,1,2⟩, ⟨1,1,1⟩] ∧
    (processFeed [] [(3,5)]
        { levelsDeep := 25, bids := [], asks := [⟨2,1,2⟩, ⟨1,1,1⟩] }).bids = [] := by
  have h := side_isolation_amended
    { levelsDeep := 25, bids := [], asks := [⟨2,1,2⟩, ⟨1,1,1⟩] } [(3,5)] [(3,5)]
    (by simp [sortedDesc]) (by intro o ho; simp at ho) (by intro i h; simp at h)
    (by simp)
    (by rw [sortedDesc]
        refine List.pairwise_cons.mpr ⟨?_, by simp⟩
        intro o ho
        rcases List.mem_singleton.mp ho with rfl
        norm_num)
    (by intro o ho
        rcases List.mem_cons.mp ho with rfl | ho
        · norm_num
        · rcases List.mem_singleton.mp ho with rfl
          norm_num)
    (by intro i h
        simp only [List.length_cons, List.length_nil] at h
        interval_cases i
        · norm_num [List.get]
        · norm_num [List.get])
    (by simp)
  exact h

theorem filterEmptyOrders_setSizeAt_zero (l : List Order) (p : ℚ) :
    ∀ (i : ℕ) (h : i < l.length), (l.get ⟨i, h⟩).price = p →
      posSizes l → (l.map Order.price).Nodup →
      filterEmptyOrders (setSizeAt 0 i l) = l.filter (fun o => decide (¬ o.price = p)) := by
  induction l with
  | nil => intro i h; simp at h
  | cons x rest ih =>
    intro i h hp hpos hnd
    rw [List.map_cons, List.nodup_cons] at hnd
    cases i with
    | zero =>
      simp only [List.get_eq_getElem, List.getElem_cons_zero] at hp
      simp only [setSizeAt, filterEmptyOrders, List.filter_cons]
      have hhead : decide ((0:ℚ) < ({ x with size := 0 } : Order).size) = false := by
        norm_num
      have hhead2 : decide (¬ x.price = p) = false := by simp [hp]
      rw [hhead, hhead2]
      simp only [Bool.false_eq_true, if_false]
      have hrest : posSizes rest := fun o ho => hpos o (by simp [ho])
      rw [show rest.filter (fun o => decide (0 < o.size)) = filterEmptyOrders rest from rfl,
        filterEmptyOrders_eq_self rest hrest]
      apply (filter_ne_price_eq_self rest p ?_).symm
      intro o ho hop
      apply hnd.1
      have hmm : o.price ∈ rest.map Order.price := List.mem_map_of_mem Order.price ho
      rwa [hop, ← hp] at hmm
    | succ i =>
      have hi : i < rest.length := by simpa using h
      simp only [List.get_eq_getElem, List.getElem_cons_succ] at hp
      have hpmem : p ∈ rest.map Order.price := by
        rw [← hp]
        exact List.mem_map_of_mem Order.price (rest.get_mem i hi)
      simp only [setSizeAt, filterEmptyOrders, List.filter_cons]
      have hx : decide ((0:ℚ) < x.size) = true := by
        simpa using hpos x (by simp)
      have hx2 : decide (¬ x.price = p) = true := by
        simp only [decide_eq_true_eq]
        intro hxp
        exact hnd.1 (hxp ▸ hpmem)
      rw [hx, hx2]
      simp only [if_true]
      congr 1
      have := ih i hi (by simpa [List.get_eq_getElem] using hp)
        (fun o ho => hpos o (by simp [ho])) hnd.2
      simpa [filterEmptyOrders] using this

theorem delete_pipeline (l : List Order) (p : ℚ) (hpos : posSizes l)
    (hnd : (l.map Order.price).Nodup) (hmem : p ∈ l.map Order.price) :
    filterEmptyOrders (upsertOne l { price := p, size := 0, total := 0 })
      = l.filter (fun o => decide (¬ o.price = p)) := by
  have hex : ∃ x, x ∈ l ∧ (fun x => decide (x.price = p)) x = true := by
    obtain ⟨o, ho, hop⟩ := List.mem_map.mp hmem
    exact ⟨o, ho, by simp [hop]⟩
  have hfind := List.findIdx?_eq_some_of_exists hex
  obtain ⟨hlen, hpi, -⟩ := List.findIdx?_eq_some_iff_getElem.mp hfind
  rw [upsertOne]
  simp only [hfind]
  exact filterEmptyOrders_setSizeAt_zero l p _ hlen
    (by simpa [List.get_eq_getElem] using hpi) hpos hnd

theorem noop_pipeline (l : List Order) (p : ℚ) (hpos : posSizes l)
    (hmem : p ∉ l.map Order.price) :
    filterEmptyOrders (upsertOne l { price := p, size := 0, total := 0 }) = l := by
  have hfind : l.findIdx? (fun x => decide (x.price = p)) = none := by
    rw [List.findIdx?_eq_none_iff]
    intro x hx
    simp only [decide_eq_false_iff_not]
    intro hxp
    exact hmem (hxp ▸ List.mem_map_of_mem Order.price hx)
  rw [upsertOne]
  simp only [hfind]
  rw [filterEmptyOrders_insertAt_zero _ rfl, filterEmptyOrders_eq_self l hpos]

theorem priceSizes_filter_ne (l : List Order) (p : ℚ) :
    priceSizes (l.filter (fun o => decide (¬ o.price = p)))
      = (priceSizes l).filter (fun x => decide (¬ x.1 = p)) := by
  induction l with
  | nil => rfl
  | cons x rest ih =>
    simp only [priceSizes, List.map_cons, List.filter_cons, decide_not] at ih ⊢
    by_cases hx : x.price = p
    · simp [hx, ih]
    · simp [hx, ih]

/-- **C6** Deletion semantics.  For any book state satisfying the committed
invariants of the relevant side: submitting the single update `(p, 0)` for
a price `p` present on that side removes that level from the committed
sequence (the committed `(price, size)` projection is the old one with the
`p` level filtered out); submitting `(p, 0)` for a price not present
leaves the side's committed levels entirely unchanged (a no-op). -/
theorem deletion_semantics (b : OrderBook) (p : ℚ) :
    ((b.bids.map Order.price).Nodup → posSizes b.bids → b.bids.length ≤ b.levelsDeep →
      p ∈ b.bids.map Order.price →
      priceSizes (processFeed [(p,0)] [] b).bids
        = (priceSizes b.bids).filter (fun x => decide (¬ x.1 = p))) ∧
    (p ∉ b.bids.map Order.price → posSizes b.bids → cumOkBids b.bids →
      b.bids.length ≤ b.levelsDeep →
      (processFeed [(p,0)] [] b).bids = b.bids) ∧
    ((b.asks.map Order.price).Nodup → posSizes b.asks → b.asks.length ≤ b.levelsDeep →
      p ∈ b.asks.map Order.price →
      priceSizes (processFeed [] [(p,0)] b).asks
        = (priceSizes b.asks).filter (fun x => decide (¬ x.1 = p))) ∧
    (p ∉ b.asks.map Order.price → posSizes b.asks → cumOkAsks b.asks →
      b.asks.length ≤ b.levelsDeep →
      (processFeed [] [(p,0)] b).asks = b.asks) := by
  have hmap : mapOrders [(p,0)] = [{ price := p, size := 0, total := 0 }] := rfl
  have hsideA : sideOrders OrderSide.ASK (processOrders [] OrderSide.BID b) = b.asks := rfl
  refine ⟨?_, ?_, ?_, ?_⟩
  · intro hnd hpos hlen hmem
    rw [bids_processFeed, preTrim, hmap, upsert_singleton]
    simp only [sideOrders]
    rw [delete_pipeline b.bids p hpos hnd hmem]
    have hlf : (sumOrders OrderSide.BID
        (b.bids.filter (fun o => decide (¬ o.price = p)))).length ≤ b.levelsDeep := by
      simp only [sumOrders, length_sumBidsAux]
      exact le_trans (List.length_filter_le _ _) hlen
    rw [trimBook_BID_of_le _ _ hlf]
    simp only [sumOrders]
    rw [priceSizes_sumBidsAux, priceSizes_filter_ne]
  · intro hmem hpos hc hlen
    rw [bids_processFeed, preTrim, hmap, upsert_singleton]
    simp only [sideOrders]
    rw [noop_pipeline b.bids p hpos hmem]
    simp only [sumOrders]
    rw [sumBids_eq_self_of_cumOk _ hc]
    exact trimBook_BID_of_le _ _ hlen
  · intro hnd hpos hlen hmem
    rw [asks_processFeed, preTrim, hmap, upsert_singleton, hsideA]
    rw [delete_pipeline b.asks p hpos hnd hmem]
    have hlf : (sumOrders OrderSide.ASK
        (b.asks.filter (fun o => decide (¬ o.price = p)))).length ≤ b.levelsDeep := by
      simp only [sumOrders, length_sumAsks]
      exact le_trans (List.length_filter_le _ _) hlen
    rw [trimBook_ASK_of_le _ _ hlf]
    simp only [sumOrders]
    rw [priceSizes_sumAsks, priceSizes_filter_ne]
  · intro hmem hpos hc hlen
    rw [asks_processFeed, preTrim, hmap, upsert_singleton, hsideA]
    rw [noop_pipeline b.asks p hpos hmem]
    simp only [sumOrders]
    rw [sumAsks_eq_self_of_cumOk _ hc]
    exact trimBook_ASK_of_le _ _ hlen

/-- Witness for C6 on the committed Scenario A book: deleting the existing
bid price 100 removes that level; a size-zero update at the absent ask
price 50 is a no-op. -/
theorem deletion_semantics_witness :
    priceSizes (processFeed [(100,0)] []
        { levelsDeep := 25, bids := [⟨100,5,5⟩, ⟨99,3,8⟩],
          asks := [⟨102,2,6⟩, ⟨101,4,4⟩] }).bids
      = (priceSizes ([⟨100,5,5⟩, ⟨99,3,8⟩] : List Order)).filter
          (fun x => decide (¬ x.1 = 100)) ∧
    (processFeed [] [(50,0)]
        { levelsDeep := 25, bids := [⟨100,5,5⟩, ⟨99,3,8⟩],
          asks := [⟨102,2,6⟩, ⟨101,4,4⟩] }).asks = [⟨102,2,6⟩, ⟨101,4,4⟩] := by
  constructor
  · exact (deletion_semantics
      { levelsDeep := 25, bids := [⟨100,5,5⟩, ⟨99,3,8⟩],
        asks := [⟨102,2,6⟩, ⟨101,4,4⟩] } 100).1
      (by norm_num)
      (by intro o ho
          rcases List.mem_cons.mp ho with rfl | ho
          · norm_num
          · rcases List.mem_singleton.mp ho with rfl
            norm_num)
      (by norm_num)
      (by norm_num)
  · exact (deletion_semantics
      { levelsDeep := 25, bids := [⟨100,5,5⟩, ⟨99,3,8⟩],
        asks := [⟨102,2,6⟩, ⟨101,4,4⟩] } 50).2.2.2
      (by norm_num)
      (by intro o ho
          rcases List.mem_cons.mp ho with rfl | ho
          · norm_num
          · rcases List.mem_singleton.mp ho with rfl
            norm_num)
      (by intro i h
          simp only [List.length_cons, List.length_nil] at h
          interval_cases i
          · norm_num [List.get]
          · norm_num [List.get])
      (by norm_num)

/-! ## Lookup view of a side: machinery for the idempotence proof -/

/-- The size stored at the first level with price `p` (the level `_findIndex`
would find), if any. -/
def lookupSize (p : ℚ) : List Order → Option ℚ
  | [] => none
  | o :: rest => if o.price = p then some o.size else lookupSize p rest

/-- The size carried by the LAST batch entry with price `p`, if any
(last-write-wins within a batch). -/
def lastSize (p : ℚ) : List Order → Option ℚ
  | [] => none
  | o :: rest =>
    match lastSize p rest with
    | some s => some s
    | none => if o.price = p then some o.size else none

/-- What `filterEmptyOrders` does to a looked-up size. -/
def posFilter : Option ℚ → Option ℚ
  | some s => if 0 < s then some s else none
  | none => none

theorem lookupSize_eq_none_iff (p : ℚ) (l : List Order) :
    lookupSize p l = none ↔ ∀ o ∈ l, o.price ≠ p := by
  induction l with
  | nil => simp [lookupSize]
  | cons x rest ih =>
    rw [lookupSize]
    by_cases hx : x.price = p
    · simp [hx]
    · simp [hx, ih]

theorem lookupSize_mem (p : ℚ) (l : List Order) (s : ℚ) (h : lookupSize p l = some s) :
    ∃ o ∈ l, o.price = p ∧ o.size = s := by
  induction l with
  | nil => simp [lookupSize] at h
  | cons x rest ih =>
    rw [lookupSize] at h
    by_cases hx : x.price = p
    · rw [if_pos hx] at h
      exact ⟨x, by simp, hx, Option.some.inj h⟩
    · rw [if_neg hx] at h
      obtain ⟨o, ho, hp2, hs2⟩ := ih h
      exact ⟨o, by simp [ho], hp2, hs2⟩

theorem lookupSize_of_mem (l : List Order) (hnd : (l.map Order.price).Nodup)
    (o : Order) (ho : o ∈ l) : lookupSize o.price l = some o.size := by
  induction l with
  | nil => simp at ho
  | cons x rest ih =>
    rw [List.map_cons, List.nodup_cons] at hnd
    rcases List.mem_cons.mp ho with rfl | ho
    · rw [lookupSize, if_pos rfl]
    · rw [lookupSize]
      by_cases hx : x.price = o.price
      · exact absurd (hx ▸ List.mem_map_of_mem Order.price ho) hnd.1
      · rw [if_neg hx]
        exact ih hnd.2 ho

theorem lookupSize_congr_ps (p : ℚ) (l₁ l₂ : List Order)
    (h : priceSizes l₁ = priceSizes l₂) : lookupSize p l₁ = lookupSize p l₂ := by
  induction l₁ generalizing l₂ with
  | nil =>
    cases l₂ with
    | nil => rfl
    | cons y ys => simp [priceSizes] at h
  | cons x xs ih =>
    cases l₂ with
    | nil => simp [priceSizes] at h
    | cons y ys =>
      simp only [priceSizes, List.map_cons, List.cons.injEq, Prod.mk.injEq] at h
      rw [lookupSize, lookupSize, h.1.1, h.1.2]
      by_cases hy : y.price = p
      · simp [hy]
      · simp only [hy, if_false]
        exact ih ys h.2

theorem sumBidsAux_congr_ps (acc : ℚ) (l₁ l₂ : List Order)
    (h : priceSizes l₁ = priceSizes l₂) : sumBidsAux acc l₁ = sumBidsAux acc l₂ := by
  induction l₁ generalizing acc l₂ with
  | nil =>
    cases l₂ with
    | nil => rfl
    | cons y ys => simp [priceSizes] at h
  | cons x xs ih =>
    cases l₂ with
    | nil => simp [priceSizes] at h
    | cons y ys =>
      simp only [priceSizes, List.map_cons, List.cons.injEq, Prod.mk.injEq] at h
      rw [sumBidsAux, sumBidsAux, h.1.1, h.1.2, ih (acc + y.size) ys h.2]

theorem sumAsks_congr_ps (l₁ l₂ : List Order)
    (h : priceSizes l₁ = priceSizes l₂) : sumAsks l₁ = sumAsks l₂ := by
  induction l₁ generalizing l₂ with
  | nil =>
    cases l₂ with
    | nil => rfl
    | cons y ys => simp [priceSizes] at h
  | cons x xs ih =>
    cases l₂ with
    | nil => simp [priceSizes] at h
    | cons y ys =>
      simp only [priceSizes, List.map_cons, List.cons.injEq, Prod.mk.injEq] at h
      rw [sumAsks_cons, sumAsks_cons, h.1.1, h.1.2, ih ys h.2]
      have hsz : ys.map Order.size = xs.map Order.size := by
        have h1 : (priceSizes xs).map Prod.snd = (priceSizes ys).map Prod.snd := by
          rw [show priceSizes xs = priceSizes ys from h.2]
        simpa [priceSizes, List.map_map, Function.comp] using h1.symm
      rw [hsz]

theorem lookupSize_setSizeAt (q sz : ℚ) (op : ℚ) :
    ∀ (acc : List Order) (i : ℕ), i < acc.length →
      (∀ (h : i < acc.length), (acc.get ⟨i, h⟩).price = op) →
      (∀ j (hj : j < i) (h : j < acc.length), (acc.get ⟨j, h⟩).price ≠ op) →
      lookupSize q (setSizeAt sz i acc)
        = if op = q then some sz else lookupSize q acc := by
  intro acc
  induction acc with
  | nil => intro i h; simp at h
  | cons x rest ih =>
    intro i hlen hpi hjs
    cases i with
    | zero =>
      have hx : x.price = op := hpi hlen
      rw [setSizeAt, lookupSize, lookupSize]
      by_cases hq : x.price = q
      · simp only [show ({ x with size := sz } : Order).price = x.price from rfl, hq, if_true]
        rw [if_pos (hx ▸ hq)]
      · simp only [show ({ x with size := sz } : Order).price = x.price from rfl, hq, if_false]
        rw [if_neg (fun hc : op = q => hq (hx.trans hc))]
    | succ i =>
      have hx : x.price ≠ op := by
        have := hjs 0 (Nat.succ_pos i) (by simp)
        simpa using this
      have hi : i < rest.length := by simpa using hlen
      rw [setSizeAt, lookupSize, lookupSize]
      by_cases hq : x.price = q
      · rw [if_pos hq, if_pos hq, if_neg (fun hc : op = q => hx (hq.trans hc.symm))]
      · rw [if_neg hq, if_neg hq]
        apply ih i hi
        · intro h
          have := hpi hlen
          simpa using this
        · intro j hj h
          have := hjs (j + 1) (Nat.succ_lt_succ hj) (by simpa using h)
          simpa using this

theorem lookupSize_insertAt (q : ℚ) (o : Order) :
    ∀ (j : ℕ) (acc : List Order), (∀ x ∈ acc, x.price ≠ o.price) →
      lookupSize q (insertAt o j acc)
        = if o.price = q then some o.size else lookupSize q acc := by
  intro j
  induction j with
  | zero =>
    intro acc hne
    rw [insertAt, lookupSize]
  | succ j ih =>
    intro acc hne
    cases acc with
    | nil =>
      rfl
    | cons x rest =>
      rw [insertAt, lookupSize, lookupSize]
      by_cases hq : x.price = q
      · rw [if_pos hq, if_pos hq,
          if_neg (fun hc : o.price = q => hne x (by simp) (hq.trans hc.symm))]
      · rw [if_neg hq, if_neg hq]
        exact ih rest (fun z hz => hne z (by simp [hz]))

theorem lookupSize_upsertOne (q : ℚ) (acc : List Order) (o : Order) :
    lookupSize q (upsertOne acc o)
      = if o.price = q then some o.size else lookupSize q acc := by
  rw [upsertOne]
  cases hf : acc.findIdx? (fun x => decide (x.price = o.price)) with
  | some i =>
    obtain ⟨hlen, hpi, hjs⟩ := List.findIdx?_eq_some_iff_getElem.mp hf
    simp only []
    apply lookupSize_setSizeAt q o.size o.price acc i hlen
    · intro h
      simpa [List.get_eq_getElem] using hpi
    · intro j hj h
      have := hjs j hj
      simpa [List.get_eq_getElem] using this
  | none =>
    have hne : ∀ x ∈ acc, x.price ≠ o.price := by
      intro x hx
      have := List.findIdx?_eq_none_iff.mp hf x hx
      simpa using this
    simp only []
    exact lookupSize_insertAt q o (sortedInsertIdx acc o) acc hne

theorem lookupSize_foldl_upsertOne (q : ℚ) (batch : List Order) :
    ∀ acc : List Order,
      lookupSize q (batch.foldl upsertOne acc)
        = match lastSize q batch with
          | some s => some s
          | none => lookupSize q acc := by
  induction batch with
  | nil => intro acc; rfl
  | cons o rest ih =>
    intro acc
    rw [List.foldl_cons, ih (upsertOne acc o), lastSize]
    cases hr : lastSize q rest with
    | some s => rfl
    | none =>
      rw [lookupSize_upsertOne]
      by_cases hq : o.price = q
      · rw [if_pos hq, if_pos hq]
      · rw [if_neg hq, if_neg hq]

theorem lookupSize_cons_ne (q : ℚ) (x : Order) (xs : List Order) (h : x.price ≠ q) :
    lookupSize q (x :: xs) = lookupSize q xs := by
  rw [lookupSize, if_neg h]

theorem lookupSize_cons_self (x : Order) (xs : List Order) :
    lookupSize x.price (x :: xs) = some x.size := by
  rw [lookupSize, if_pos rfl]

theorem lookupSize_head_tail (a : Order) (as : List Order) (hs : sortedDesc (a :: as)) :
    lookupSize a.price as = none := by
  rw [lookupSize_eq_none_iff]
  intro o ho
  exact ne_of_lt ((List.pairwise_cons.mp hs).1 o ho)

theorem lookupSize_filterEmptyOrders (q : ℚ) (m : List Order) (hs : sortedDesc m) :
    lookupSize q (filterEmptyOrders m) = posFilter (lookupSize q m) := by
  induction m with
  | nil => rfl
  | cons x rest ih =>
    have htail := ih ((List.pairwise_cons.mp hs).2)
    rw [filterEmptyOrders, List.filter_cons]
    by_cases hq : x.price = q
    · have hrn : lookupSize q rest = none := hq ▸ lookupSize_head_tail x rest hs
      rw [lookupSize, if_pos hq, posFilter]
      by_cases hx : (0:ℚ) < x.size
      · rw [decide_eq_true hx]
        simp only [if_true]
        rw [lookupSize, if_pos hq, if_pos hx]
      · rw [decide_eq_false hx]
        simp only [Bool.false_eq_true, if_false]
        rw [if_neg hx]
        rw [show rest.filter (fun o => decide (0 < o.size)) = filterEmptyOrders rest from rfl,
          htail, hrn]
        rfl
    · rw [lookupSize, if_neg hq]
      by_cases hx : (0:ℚ) < x.size
      · rw [decide_eq_true hx]
        simp only [if_true]
        rw [lookupSize_cons_ne q x _ hq]
        exact htail
      · rw [decide_eq_false hx]
        simp only [Bool.false_eq_true, if_false]
        exact htail

theorem lookupSize_filter_price (q : ℚ) (P : ℚ → Bool) (m : List Order) (hs : sortedDesc m) :
    lookupSize q (m.filter (fun o => P o.price))
      = if P q then lookupSize q m else none := by
  induction m with
  | nil => cases hP : P q <;> simp [lookupSize, hP]
  | cons x rest ih =>
    have htail := ih ((List.pairwise_cons.mp hs).2)
    rw [List.filter_cons]
    by_cases hq : x.price = q
    · have hrn : lookupSize q rest = none := hq ▸ lookupSize_head_tail x rest hs
      subst hq
      cases hP : P x.price with
      | true =>
        simp only [hP, if_true]
        rw [lookupSize_cons_self, lookupSize_cons_self]
      | false =>
        simp only [hP, Bool.false_eq_true, if_false]
        rw [htail, hP]
        simp
    · rw [lookupSize_cons_ne q x rest hq]
      cases hP : P x.price with
      | true =>
        simp only [if_true]
        rw [lookupSize_cons_ne q x _ hq]
        rw [htail]
      | false =>
        simp only [Bool.false_eq_true, if_false]
        exact htail

theorem sorted_lookup_ext (l₁ : List Order) :
    ∀ (l₂ : List Order), sortedDesc l₁ → sortedDesc l₂ →
      (∀ q, lookupSize q l₁ = lookupSize q l₂) → priceSizes l₁ = priceSizes l₂ := by
  induction l₁ with
  | nil =>
    intro l₂ h₁ h₂ h
    cases l₂ with
    | nil => rfl
    | cons b bs =>
      have hb := h b.price
      rw [lookupSize_cons_self] at hb
      simp [lookupSize] at hb
  | cons a as ih =>
    intro l₂ h₁ h₂ h
    cases l₂ with
    | nil =>
      have ha := h a.price
      rw [lookupSize_cons_self] at ha
      simp [lookupSize] at ha
    | cons b bs =>
      have hpe : a.price = b.price := by
        by_contra hne
        have h1 := h a.price
        rw [lookupSize_cons_self, lookupSize_cons_ne _ b bs (fun hc => hne hc.symm)] at h1
        obtain ⟨o, ho, hop, -⟩ := lookupSize_mem _ _ _ h1.symm
        have hab : a.price < b.price := by
          have := (List.pairwise_cons.mp h₂).1 o ho
          rwa [hop] at this
        have h2 := h b.price
        rw [lookupSize_cons_self, lookupSize_cons_ne _ a as hne] at h2
        obtain ⟨o2, ho2, hop2, -⟩ := lookupSize_mem _ _ _ h2
        have hba : b.price < a.price := by
          have := (List.pairwise_cons.mp h₁).1 o2 ho2
          rwa [hop2] at this
        exact absurd (lt_trans hab hba) (lt_irrefl _)
      have hse : a.size = b.size := by
        have h1 := h a.price
        rw [lookupSize_cons_self, lookupSize, if_pos hpe.symm] at h1
        exact Option.some.inj h1
      have htails : ∀ q, lookupSize q as = lookupSize q bs := by
        intro q
        by_cases hq : q = a.price
        · rw [hq, lookupSize_head_tail a as h₁, hpe, lookupSize_head_tail b bs h₂]
        · have hq2 : b.price ≠ q := fun hc => hq ((hpe.trans hc).symm)
          have := h q
          rwa [lookupSize_cons_ne _ a as (fun hc => hq hc.symm),
            lookupSize_cons_ne _ b bs hq2] at this
      simp only [priceSizes, List.map_cons]
      rw [hpe, hse]
      have htl := ih bs ((List.pairwise_cons.mp h₁).2) ((List.pairwise_cons.mp h₂).2) htails
      simp only [priceSizes] at htl
      rw [htl]

theorem sorted_split_ge (c : ℚ) (l : List Order) (hs : sortedDesc l) :
    l = l.filter (fun o => decide (c ≤ o.price)) ++ l.filter (fun o => decide (o.price < c)) := by
  induction l with
  | nil => rfl
  | cons x rest ih =>
    obtain ⟨hhead, htail⟩ := List.pairwise_cons.mp hs
    by_cases hx : c ≤ x.price
    · rw [List.filter_cons, List.filter_cons, decide_eq_true hx,
        decide_eq_false (not_lt.mpr hx)]
      simp only [Bool.false_eq_true, if_false, if_true, List.cons_append]
      exact congrArg (x :: ·) (ih htail)
    · have hxlt : x.price < c := lt_of_not_le hx
      rw [List.filter_cons, List.filter_cons, decide_eq_false hx, decide_eq_true hxlt]
      simp only [Bool.false_eq_true, if_false, if_true]
      have h1 : rest.filter (fun o => decide (c ≤ o.price)) = [] := by
        rw [List.filter_eq_nil_iff]
        intro o ho
        simp only [decide_eq_true_eq]
        exact not_le.mpr (lt_trans (hhead o ho) hxlt)
      have h2 : rest.filter (fun o => decide (o.price < c)) = rest := by
        rw [List.filter_eq_self]
        intro o ho
        simp only [decide_eq_true_eq]
        exact lt_trans (hhead o ho) hxlt
      rw [h1]
      simp only [List.nil_append]
      have h3 := ih htail
      rw [h1, h2] at h3
      simp only [List.nil_append] at h3
      rw [h2]

theorem sorted_split_gt (c : ℚ) (l : List Order) (hs : sortedDesc l) :
    l = l.filter (fun o => decide (c < o.price)) ++ l.filter (fun o => decide (o.price ≤ c)) := by
  induction l with
  | nil => rfl
  | cons x rest ih =>
    obtain ⟨hhead, htail⟩ := List.pairwise_cons.mp hs
    by_cases hx : c < x.price
    · rw [List.filter_cons, List.filter_cons, decide_eq_true hx,
        decide_eq_false (not_le.mpr hx)]
      simp only [Bool.false_eq_true, if_false, if_true, List.cons_append]
      exact congrArg (x :: ·) (ih htail)
    · have hxle : x.price ≤ c := le_of_not_lt hx
      rw [List.filter_cons, List.filter_cons, decide_eq_false hx, decide_eq_true hxle]
      simp only [Bool.false_eq_true, if_false, if_true]
      have h1 : rest.filter (fun o => decide (c < o.price)) = [] := by
        rw [List.filter_eq_nil_iff]
        intro o ho
        simp only [decide_eq_true_eq]
        exact not_lt.mpr (le_of_lt (lt_of_lt_of_le (hhead o ho) hxle))
      rw [h1]
      simp only [List.nil_append]
      have h2 : rest.filter (fun o => decide (o.price ≤ c)) = rest := by
        rw [List.filter_eq_self]
        intro o ho
        simp only [decide_eq_true_eq]
        exact le_of_lt (lt_of_lt_of_le (hhead o ho) hxle)
      rw [h2]

theorem lookup_of_sub (l m : List Order) (hnd : (l.map Order.price).Nodup)
    (hsub : ∀ o ∈ m, o ∈ l) (q s : ℚ) (h : lookupSize q m = some s) :
    lookupSize q l = some s := by
  obtain ⟨o, ho, hop, hos⟩ := lookupSize_mem q m s h
  have := lookupSize_of_mem l hnd o (hsub o ho)
  rw [hop, hos] at this
  exact this

theorem head_price_max (l : List Order) (hs : sortedDesc l) (hne : l ≠ []) :
    ∀ o ∈ l, o.price ≤ (l.head hne).price := by
  cases l with
  | nil => exact absurd rfl hne
  | cons x xs =>
    intro o ho
    rcases List.mem_cons.mp ho with rfl | ho
    · exact le_refl _
    · exact le_of_lt ((List.pairwise_cons.mp hs).1 o ho)

theorem lookup_take_none_lt (l : List Order) (hs : sortedDesc l) (n : ℕ)
    (hk : l.take n ≠ []) (q s : ℚ) (hl : lookupSize q l = some s)
    (hkn : lookupSize q (l.take n) = none) :
    q < ((l.take n).getLast hk).price := by
  obtain ⟨o, ho, hop, -⟩ := lookupSize_mem q l s hl
  have honk : o ∉ l.take n := by
    intro hmem
    exact (lookupSize_eq_none_iff q (l.take n)).mp hkn o hmem hop
  have hod : o ∈ l.drop n := by
    have hsplit := List.take_append_drop n l
    rcases List.mem_append.mp (by rw [hsplit]; exact ho) with hmem | hmem
    · exact absurd hmem honk
    · exact hmem
  have hsp : ((l.take n) ++ (l.drop n)).Pairwise (fun a b => b.price < a.price) := by
    rw [List.take_append_drop]
    exact hs
  have := (List.pairwise_append.mp hsp).2.2 _ (List.getLast_mem hk) o hod
  rw [hop] at this
  exact this

theorem lookup_drop_none_gt (l : List Order) (hs : sortedDesc l) (k : ℕ)
    (hk : l.drop k ≠ []) (q s : ℚ) (hl : lookupSize q l = some s)
    (hkn : lookupSize q (l.drop k) = none) :
    ((l.drop k).head hk).price < q := by
  obtain ⟨o, ho, hop, -⟩ := lookupSize_mem q l s hl
  have honk : o ∉ l.drop k := by
    intro hmem
    exact (lookupSize_eq_none_iff q (l.drop k)).mp hkn o hmem hop
  have hot : o ∈ l.take k := by
    have hsplit := List.take_append_drop k l
    rcases List.mem_append.mp (by rw [hsplit]; exact ho) with hmem | hmem
    · exact hmem
    · exact absurd hmem honk
  have hsp : ((l.take k) ++ (l.drop k)).Pairwise (fun a b => b.price < a.price) := by
    rw [List.take_append_drop]
    exact hs
  have := (List.pairwise_append.mp hsp).2.2 o hot _ (List.head_mem hk)
  rw [hop] at this
  exact this

theorem posSizes_filterEmptyOrders (l : List Order) : posSizes (filterEmptyOrders l) := by
  intro o ho
  have := (List.mem_filter.mp ho).2
  simpa using this

theorem lookup_pos (l : List Order) (hp : posSizes l) (q s : ℚ)
    (h : lookupSize q l = some s) : 0 < s := by
  obtain ⟨o, ho, -, hos⟩ := lookupSize_mem q l s h
  rw [← hos]
  exact hp o ho

theorem lookup_some_ge_getLast (k : List Order) (hs : sortedDesc k) (hk : k ≠ [])
    (q s : ℚ) (h : lookupSize q k = some s) : (k.getLast hk).price ≤ q := by
  obtain ⟨o, ho, hop, -⟩ := lookupSize_mem q k s h
  rw [← hop]
  exact getLast_price_min k hs hk o ho

theorem lookup_some_le_head (k : List Order) (hs : sortedDesc k) (hk : k ≠ [])
    (q s : ℚ) (h : lookupSize q k = some s) : q ≤ (k.head hk).price := by
  obtain ⟨o, ho, hop, -⟩ := lookupSize_mem q k s h
  rw [← hop]
  exact head_price_max k hs hk o ho

theorem lookup_all_none_nil (l : List Order) (h : ∀ q, lookupSize q l = none) : l = [] := by
  cases l with
  | nil => rfl
  | cons x xs =>
    have := h x.price
    rw [lookupSize_cons_self] at this
    exact absurd this (by simp)

theorem posSizes_of_ps_eq (a b : List Order) (h : priceSizes a = priceSizes b)
    (hp : posSizes b) : posSizes a := by
  intro o ho
  have h1 : (o.price, o.size) ∈ priceSizes b := by
    rw [← h]
    exact List.mem_map_of_mem _ ho
  obtain ⟨o2, ho2, heq⟩ := List.mem_map.mp h1
  have h2 : o2.size = o.size := congrArg Prod.snd heq
  rw [← h2]
  exact hp o2 ho2

theorem length_ps_eq (a b : List Order) (h : priceSizes a = priceSizes b) :
    a.length = b.length := by
  have := congrArg List.length h
  simpa [priceSizes] using this

/-- `overlay a b`: `a` if present, else `b` (batch value overrides book value). -/
def overlay (a b : Option ℚ) : Option ℚ :=
  match a with
  | some s => some s
  | none => b

theorem overlay_some (s : ℚ) (b : Option ℚ) : overlay (some s) b = some s := rfl

theorem overlay_none (b : Option ℚ) : overlay none b = b := rfl

theorem lookupSize_foldl_overlay (q : ℚ) (batch acc : List Order) :
    lookupSize q (batch.foldl upsertOne acc)
      = overlay (lastSize q batch) (lookupSize q acc) := by
  rw [lookupSize_foldl_upsertOne]
  cases lastSize q batch <;> rfl

theorem posFilter_some (s : ℚ) : posFilter (some s) = if 0 < s then some s else none := rfl

theorem posFilter_eq_some (a : Option ℚ) (s : ℚ) (h : posFilter a = some s) :
    a = some s ∧ 0 < s := by
  cases a with
  | none => simp [posFilter] at h
  | some s2 =>
    rw [posFilter_some] at h
    by_cases h2 : 0 < s2
    · rw [if_pos h2] at h
      have hs2 : s2 = s := Option.some.inj h
      exact ⟨congrArg some hs2, hs2 ▸ h2⟩
    · rw [if_neg h2] at h
      exact absurd h (by simp)

/-- One bid-side pipeline pass (as applied to the stored list) is idempotent
on sorted, positively-sized inputs. -/
theorem bidPipe_idem (n : ℕ) (batch l0 : List Order)
    (hs0 : sortedDesc l0) (hp0 : posSizes l0) :
    trimBook OrderSide.BID n (sumOrders OrderSide.BID (filterEmptyOrders
        (batch.foldl upsertOne
          (trimBook OrderSide.BID n (sumOrders OrderSide.BID
            (filterEmptyOrders (batch.foldl upsertOne l0)))))))
      = trimBook OrderSide.BID n (sumOrders OrderSide.BID
          (filterEmptyOrders (batch.foldl upsertOne l0))) := by
  have hsM1 : sortedDesc (batch.foldl upsertOne l0) :=
    sortedDesc_foldl_upsertOne batch l0 hs0
  set f1 := filterEmptyOrders (batch.foldl upsertOne l0) with hf1def
  have hsf1 : sortedDesc f1 := sortedDesc_filterEmptyOrders _ hsM1
  have hpf1 : posSizes f1 := posSizes_filterEmptyOrders _
  have hndf1 : (f1.map Order.price).Nodup := nodup_prices_of_sortedDesc f1 hsf1
  rw [trim_sum_comm OrderSide.BID n f1]
  set k1 := trimBook OrderSide.BID n f1 with hk1def
  have hk1take : k1 = f1.take n := rfl
  set l1 := sumOrders OrderSide.BID k1 with hl1def
  have hsk1 : sortedDesc k1 := by
    rw [hk1take]
    exact List.Pairwise.sublist (List.take_sublist n f1) hsf1
  have hpk1 : posSizes k1 := by
    rw [hk1take]
    exact fun o ho => hpf1 o ((List.take_sublist n f1).subset ho)
  have hpsl1 : priceSizes l1 = priceSizes k1 := priceSizes_sumBidsAux 0 k1
  have hsl1 : sortedDesc l1 := sortedDesc_sumOrders OrderSide.BID k1 hsk1
  have hll1 : ∀ q, lookupSize q l1 = lookupSize q k1 :=
    fun q => lookupSize_congr_ps q l1 k1 hpsl1
  have hsM2 : sortedDesc (batch.foldl upsertOne l1) :=
    sortedDesc_foldl_upsertOne batch l1 hsl1
  set f2 := filterEmptyOrders (batch.foldl upsertOne l1) with hf2def
  have hsf2 : sortedDesc f2 := sortedDesc_filterEmptyOrders _ hsM2
  have hndf2 : (f2.map Order.price).Nodup := nodup_prices_of_sortedDesc f2 hsf2
  rw [trim_sum_comm OrderSide.BID n f2]
  have hlf1 : ∀ q, lookupSize q f1
      = posFilter (overlay (lastSize q batch) (lookupSize q l0)) := by
    intro q
    rw [hf1def, lookupSize_filterEmptyOrders q _ hsM1, lookupSize_foldl_overlay]
  have hlf2 : ∀ q, lookupSize q f2
      = posFilter (overlay (lastSize q batch) (lookupSize q l1)) := by
    intro q
    rw [hf2def, lookupSize_filterEmptyOrders q _ hsM2, lookupSize_foldl_overlay]
  suffices hps : priceSizes (trimBook OrderSide.BID n f2) = priceSizes k1 by
    show sumBidsAux 0 (trimBook OrderSide.BID n f2) = sumBidsAux 0 k1
    exact sumBidsAux_congr_ps 0 _ _ hps
  rw [show trimBook OrderSide.BID n f2 = f2.take n from rfl, hk1take]
  by_cases hk1e : f1.take n = []
  · rw [hk1e]
    rcases List.take_eq_nil_iff.mp hk1e with hn0 | hf1e
    · rw [hn0, List.take_zero]
    · have hl1e : l1 = [] := by
        rw [hl1def, hk1take, hf1e, List.take_nil]
        rfl
      have hf2e : f2 = [] := by
        apply lookup_all_none_nil
        intro q
        rw [hlf2 q, hl1e]
        cases hls : lastSize q batch with
        | none => rfl
        | some s =>
          have h1 := hlf1 q
          rw [hls, hf1e, overlay_some] at h1
          exact h1.symm.trans (by rw [lookupSize])
      rw [hf2e]
      simp
  · have hk1ne : k1 ≠ [] := by rw [hk1take]; exact hk1e
    have htmem : k1.getLast hk1ne ∈ k1 := List.getLast_mem hk1ne
    have hlk1f1 : ∀ q s, lookupSize q k1 = some s → lookupSize q f1 = some s := by
      intro q s h
      apply lookup_of_sub f1 k1 hndf1 _ q s h
      rw [hk1take]
      exact fun o ho => (List.take_sublist n f1).subset ho
    have hW1 : ∀ q, lookupSize q
          (f2.filter (fun o => decide ((k1.getLast hk1ne).price ≤ o.price)))
        = lookupSize q l1 := by
      intro q
      rw [lookupSize_filter_price q (fun p => decide ((k1.getLast hk1ne).price ≤ p)) f2 hsf2]
      by_cases hql : (lookupSize q l1).isSome
      · obtain ⟨s, hqs⟩ := Option.isSome_iff_exists.mp hql
        have hqk : lookupSize q k1 = some s := (hll1 q).symm.trans hqs
        have htq : (k1.getLast hk1ne).price ≤ q :=
          lookup_some_ge_getLast k1 hsk1 hk1ne q s hqk
        have hspos : 0 < s := lookup_pos k1 hpk1 q s hqk
        have hqf1 : lookupSize q f1 = some s := hlk1f1 q s hqk
        have hf2some : lookupSize q f2 = some s := by
          rw [hlf2 q]
          cases hls : lastSize q batch with
          | some s2 =>
            have h1 := hlf1 q
            rw [hls, overlay_some] at h1
            have h2 : posFilter (some s2) = some s := h1.symm.trans hqf1
            rw [overlay_some, h2]
          | none =>
            rw [overlay_none, hqs, posFilter_some, if_pos hspos]
        rw [decide_eq_true htq, if_pos rfl, hf2some, hqs]
      · have hqn : lookupSize q l1 = none := Option.not_isSome_iff_eq_none.mp hql
        have hqk : lookupSize q k1 = none := (hll1 q).symm.trans hqn
        rw [hqn]
        by_cases htq : (k1.getLast hk1ne).price ≤ q
        · rw [decide_eq_true htq, if_pos rfl]
          rw [hlf2 q]
          cases hls : lastSize q batch with
          | none => rw [overlay_none, hqn]; rfl
          | some s2 =>
            rw [overlay_some, posFilter_some]
            by_cases hs2 : 0 < s2
            · exfalso
              have h1 := hlf1 q
              rw [hls, overlay_some, posFilter_some, if_pos hs2] at h1
              have hlt := lookup_take_none_lt f1 hsf1 n hk1e q s2 h1
                (by rw [← hk1take]; exact hqk)
              have : q < (k1.getLast hk1ne).price := hlt
              exact absurd htq (not_le.mpr this)
            · rw [if_neg hs2]
        · rw [decide_eq_false htq]
          simp
    set A := f2.filter (fun o => decide ((k1.getLast hk1ne).price ≤ o.price)) with hAdef
    set B := f2.filter (fun o => decide (o.price < (k1.getLast hk1ne).price)) with hBdef
    have hsA : sortedDesc A := List.Pairwise.sublist (List.filter_sublist f2) hsf2
    have hpsA : priceSizes A = priceSizes l1 := sorted_lookup_ext A l1 hsA hsl1 hW1
    have hlenA : A.length = k1.length :=
      (length_ps_eq A l1 hpsA).trans (length_ps_eq l1 k1 hpsl1)
    have hsplit : f2 = A ++ B := sorted_split_ge (k1.getLast hk1ne).price f2 hsf2
    have hk1len : k1.length ≤ n := by
      rw [hk1take, List.length_take]
      exact min_le_left _ _
    rw [hsplit]
    by_cases hB : B = []
    · rw [hB, List.append_nil, List.take_of_length_le (hlenA ▸ hk1len)]
      rw [hpsA, hpsl1, hk1take]
    · have hk1n : k1.length = n := by
        obtain ⟨o, ho⟩ := List.exists_mem_of_ne_nil B hB
        have hoB := List.mem_filter.mp (hBdef ▸ ho)
        have holt : o.price < (k1.getLast hk1ne).price := by simpa using hoB.2
        have hlook : lookupSize o.price f2 = some o.size :=
          lookupSize_of_mem f2 hndf2 o hoB.1
        have hnotk1 : lookupSize o.price k1 = none := by
          cases hK : lookupSize o.price k1 with
          | none => rfl
          | some s3 =>
            exfalso
            have := lookup_some_ge_getLast k1 hsk1 hk1ne o.price s3 hK
            exact absurd holt (not_lt.mpr this)
        have hf1some : ∃ s2, lookupSize o.price f1 = some s2 := by
          have h2 := hlf2 o.price
          rw [hlook] at h2
          cases hls : lastSize o.price batch with
          | none =>
            exfalso
            rw [hls, overlay_none, (hll1 o.price).trans hnotk1] at h2
            exact absurd h2.symm (by simp [posFilter])
          | some s2 =>
            rw [hls, overlay_some] at h2
            obtain ⟨heqq, hs2pos⟩ := posFilter_eq_some _ _ h2.symm
            have hs2 : s2 = o.size := Option.some.inj heqq
            refine ⟨s2, ?_⟩
            rw [hlf1 o.price, hls, overlay_some, posFilter_some,
              if_pos (hs2.symm ▸ hs2pos : 0 < s2)]
        obtain ⟨s2, hf1s⟩ := hf1some
        have hmin : k1.length = min n f1.length := by
          rw [hk1take, List.length_take]
        rcases le_or_lt n f1.length with hc | hc
        · rw [hmin]
          exact min_eq_left hc
        · exfalso
          have hk1f1 : k1 = f1 := by
            rw [hk1take]
            exact List.take_of_length_le (le_of_lt hc)
          rw [hk1f1, hf1s] at hnotk1
          exact absurd hnotk1 (by simp)
      have hAn : A.length = n := hlenA.trans hk1n
      nth_rewrite 1 [← hAn]
      rw [List.take_left]
      rw [hpsA, hpsl1, hk1take]

theorem trimBook_sublist (side : OrderSide) (n : ℕ) (l : List Order) :
    List.Sublist (trimBook side n l) l := by
  cases side with
  | BID => exact List.take_sublist n l
  | ASK =>
    by_cases hn : n = 0
    · simp [trimBook, hn]
    · simp only [trimBook, if_neg hn]
      exact List.drop_sublist _ l

theorem head_congr (l₁ l₂ : List Order) (h : l₁ = l₂) (h₁ : l₁ ≠ []) (h₂ : l₂ ≠ []) :
    l₁.head h₁ = l₂.head h₂ := by
  subst h
  rfl

/-- One ask-side pipeline pass (as applied to the stored list) is idempotent
on sorted, positively-sized inputs. -/
theorem askPipe_idem (n : ℕ) (batch l0 : List Order)
    (hs0 : sortedDesc l0) (hp0 : posSizes l0) :
    trimBook OrderSide.ASK n (sumOrders OrderSide.ASK (filterEmptyOrders
        (batch.foldl upsertOne
          (trimBook OrderSide.ASK n (sumOrders OrderSide.ASK
            (filterEmptyOrders (batch.foldl upsertOne l0)))))))
      = trimBook OrderSide.ASK n (sumOrders OrderSide.ASK
          (filterEmptyOrders (batch.foldl upsertOne l0))) := by
  have hsM1 : sortedDesc (batch.foldl upsertOne l0) :=
    sortedDesc_foldl_upsertOne batch l0 hs0
  set f1 := filterEmptyOrders (batch.foldl upsertOne l0) with hf1def
  have hsf1 : sortedDesc f1 := sortedDesc_filterEmptyOrders _ hsM1
  have hpf1 : posSizes f1 := posSizes_filterEmptyOrders _
  have hndf1 : (f1.map Order.price).Nodup := nodup_prices_of_sortedDesc f1 hsf1
  rw [trim_sum_comm OrderSide.ASK n f1]
  set k1 := trimBook OrderSide.ASK n f1 with hk1def
  set l1 := sumOrders OrderSide.ASK k1 with hl1def
  have hsk1 : sortedDesc k1 := List.Pairwise.sublist (trimBook_sublist _ _ _) hsf1
  have hpk1 : posSizes k1 := fun o ho => hpf1 o ((trimBook_sublist _ _ _).subset ho)
  have hpsl1 : priceSizes l1 = priceSizes k1 := priceSizes_sumAsks k1
  have hsl1 : sortedDesc l1 := sortedDesc_sumOrders OrderSide.ASK k1 hsk1
  have hll1 : ∀ q, lookupSize q l1 = lookupSize q k1 :=
    fun q => lookupSize_congr_ps q l1 k1 hpsl1
  have hsM2 : sortedDesc (batch.foldl upsertOne l1) :=
    sortedDesc_foldl_upsertOne batch l1 hsl1
  set f2 := filterEmptyOrders (batch.foldl upsertOne l1) with hf2def
  have hsf2 : sortedDesc f2 := sortedDesc_filterEmptyOrders _ hsM2
  have hndf2 : (f2.map Order.price).Nodup := nodup_prices_of_sortedDesc f2 hsf2
  rw [trim_sum_comm OrderSide.ASK n f2]
  have hlf1 : ∀ q, lookupSize q f1
      = posFilter (overlay (lastSize q batch) (lookupSize q l0)) := by
    intro q
    rw [hf1def, lookupSize_filterEmptyOrders q _ hsM1, lookupSize_foldl_overlay]
  have hlf2 : ∀ q, lookupSize q f2
      = posFilter (overlay (lastSize q batch) (lookupSize q l1)) := by
    intro q
    rw [hf2def, lookupSize_filterEmptyOrders q _ hsM2, lookupSize_foldl_overlay]
  suffices hps : priceSizes (trimBook OrderSide.ASK n f2) = priceSizes k1 by
    show sumAsks (trimBook OrderSide.ASK n f2) = sumAsks k1
    exact sumAsks_congr_ps _ _ hps
  by_cases hn0 : n = 0
  · subst hn0
    have hk1f1 : k1 = f1 := by rw [hk1def]; rfl
    have htrim2 : trimBook OrderSide.ASK 0 f2 = f2 := rfl
    rw [htrim2, hk1f1]
    apply sorted_lookup_ext f2 f1 hsf2 hsf1
    intro q
    rw [hlf2 q, hlf1 q]
    cases hls : lastSize q batch with
    | some s => rw [overlay_some, overlay_some]
    | none =>
      rw [overlay_none, overlay_none]
      have hlk : lookupSize q l1 = lookupSize q f1 := by
        rw [hll1 q, hk1f1]
      rw [hlk, hlf1 q, hls, overlay_none]
      cases hv : lookupSize q l0 with
      | none => rfl
      | some s =>
        rw [posFilter_some]
        by_cases hs : 0 < s
        · rw [if_pos hs, posFilter_some, if_pos hs]
        · rw [if_neg hs]
          rfl
  · have hk1drop : k1 = f1.drop (f1.length - n) := by
      rw [hk1def]
      simp only [trimBook, if_neg hn0]
    have htrim2 : trimBook OrderSide.ASK n f2 = f2.drop (f2.length - n) := by
      simp only [trimBook, if_neg hn0]
    rw [htrim2]
    by_cases hk1e : k1 = []
    · have hf1e : f1 = [] := by
        have := hk1drop ▸ hk1e
        have hlen := List.drop_eq_nil_iff.mp this
        have : f1.length = 0 := by omega
        exact List.length_eq_zero.mp this
      have hl1e : l1 = [] := by
        rw [hl1def, hk1drop, hf1e, List.drop_nil]
        rfl
      have hf2e : f2 = [] := by
        apply lookup_all_none_nil
        intro q
        rw [hlf2 q, hl1e]
        cases hls : lastSize q batch with
        | none => rfl
        | some s =>
          have h1 := hlf1 q
          rw [hls, hf1e, overlay_some] at h1
          rw [overlay_some]
          exact h1.symm.trans (by rw [lookupSize])
      rw [hf2e, hk1e]
      simp
    · have htmem : k1.head hk1e ∈ k1 := List.head_mem hk1e
      have hlk1f1 : ∀ q s, lookupSize q k1 = some s → lookupSize q f1 = some s := by
        intro q s h
        apply lookup_of_sub f1 k1 hndf1 _ q s h
        exact fun o ho => (trimBook_sublist _ _ _).subset ho
      have hW1 : ∀ q, lookupSize q
            (f2.filter (fun o => decide (o.price ≤ (k1.head hk1e).price)))
          = lookupSize q l1 := by
        intro q
        rw [lookupSize_filter_price q (fun p => decide (p ≤ (k1.head hk1e).price)) f2 hsf2]
        by_cases hql : (lookupSize q l1).isSome
        · obtain ⟨s, hqs⟩ := Option.isSome_iff_exists.mp hql
          have hqk : lookupSize q k1 = some s := (hll1 q).symm.trans hqs
          have htq : q ≤ (k1.head hk1e).price :=
            lookup_some_le_head k1 hsk1 hk1e q s hqk
          have hspos : 0 < s := lookup_pos k1 hpk1 q s hqk
          have hqf1 : lookupSize q f1 = some s := hlk1f1 q s hqk
          have hf2some : lookupSize q f2 = some s := by
            rw [hlf2 q]
            cases hls : lastSize q batch with
            | some s2 =>
              have h1 := hlf1 q
              rw [hls, overlay_some] at h1
              have h2 : posFilter (some s2) = some s := h1.symm.trans hqf1
              rw [overlay_some, h2]
            | none =>
              rw [overlay_none, hqs, posFilter_some, if_pos hspos]
          rw [decide_eq_true htq, if_pos rfl, hf2some, hqs]
        · have hqn : lookupSize q l1 = none := Option.not_isSome_iff_eq_none.mp hql
          have hqk : lookupSize q k1 = none := (hll1 q).symm.trans hqn
          rw [hqn]
          by_cases htq : q ≤ (k1.head hk1e).price
          · rw [decide_eq_true htq, if_pos rfl]
            rw [hlf2 q]
            cases hls : lastSize q batch with
            | none => rw [overlay_none, hqn]; rfl
            | some s2 =>
              rw [overlay_some, posFilter_some]
              by_cases hs2 : 0 < s2
              · exfalso
                have h1 := hlf1 q
                rw [hls, overlay_some, posFilter_some, if_pos hs2] at h1
                have hdne : f1.drop (f1.length - n) ≠ [] := by
                  rw [← hk1drop]
                  exact hk1e
                have hgt := lookup_drop_none_gt f1 hsf1 (f1.length - n) hdne q s2 h1
                  (by rw [← hk1drop]; exact hqk)
                have hhead : k1.head hk1e = (f1.drop (f1.length - n)).head hdne :=
                  head_congr _ _ hk1drop hk1e hdne
                have : (k1.head hk1e).price < q := by rw [hhead]; exact hgt
                exact absurd htq (not_le.mpr this)
              · rw [if_neg hs2]
          · rw [decide_eq_false htq]
            simp
      set A := f2.filter (fun o => decide ((k1.head hk1e).price < o.price)) with hAdef
      set Bk := f2.filter (fun o => decide (o.price ≤ (k1.head hk1e).price)) with hBkdef
      have hsBk : sortedDesc Bk := List.Pairwise.sublist (List.filter_sublist f2) hsf2
      have hpsBk : priceSizes Bk = priceSizes l1 := sorted_lookup_ext Bk l1 hsBk hsl1 hW1
      have hlenBk : Bk.length = k1.length :=
        (length_ps_eq Bk l1 hpsBk).trans (length_ps_eq l1 k1 hpsl1)
      have hsplit : f2 = A ++ Bk := sorted_split_gt (k1.head hk1e).price f2 hsf2
      have hk1len : k1.length ≤ n := by
        rw [hk1drop, List.length_drop]
        omega
      rw [hsplit]
      by_cases hA : A = []
      · rw [hA, List.nil_append]
        have hBklen : Bk.length ≤ n := hlenBk ▸ hk1len
        have hz : Bk.length - n = 0 := by omega
        rw [hz, List.drop_zero]
        rw [hpsBk, hpsl1]
      · have hk1n : k1.length = n := by
          obtain ⟨o, ho⟩ := List.exists_mem_of_ne_nil A hA
          have hoA := List.mem_filter.mp (hAdef ▸ ho)
          have hogt : (k1.head hk1e).price < o.price := by simpa using hoA.2
          have hlook : lookupSize o.price f2 = some o.size :=
            lookupSize_of_mem f2 hndf2 o hoA.1
          have hnotk1 : lookupSize o.price k1 = none := by
            cases hK : lookupSize o.price k1 with
            | none => rfl
            | some s3 =>
              exfalso
              have := lookup_some_le_head k1 hsk1 hk1e o.price s3 hK
              exact absurd hogt (not_lt.mpr this)
          have hf1some : ∃ s2, lookupSize o.price f1 = some s2 := by
            have h2 := hlf2 o.price
            rw [hlook] at h2
            cases hls : lastSize o.price batch with
            | none =>
              exfalso
              rw [hls, overlay_none, (hll1 o.price).trans hnotk1] at h2
              exact absurd h2.symm (by simp [posFilter])
            | some s2 =>
              rw [hls, overlay_some] at h2
              obtain ⟨heqq, hs2pos⟩ := posFilter_eq_some _ _ h2.symm
              have hs2 : s2 = o.size := Option.some.inj heqq
              refine ⟨s2, ?_⟩
              rw [hlf1 o.price, hls, overlay_some, posFilter_some,
                if_pos (hs2.symm ▸ hs2pos : 0 < s2)]
          obtain ⟨s2, hf1s⟩ := hf1some
          rcases le_or_lt n f1.length with hc | hc
          · rw [hk1drop, List.length_drop]
            omega
          · exfalso
            have hz : f1.length - n = 0 := by omega
            have hk1f1 : k1 = f1 := by rw [hk1drop, hz, List.drop_zero]
            rw [hk1f1, hf1s] at hnotk1
            exact absurd hnotk1 (by simp)
        have hBkn : Bk.length = n := hlenBk.trans hk1n
        have hlen2 : (A ++ Bk).length - n = A.length := by
          rw [List.length_append, hBkn]
          omega
        rw [hlen2, List.drop_left]
        rw [hpsBk, hpsl1]

theorem orderBook_ext (b1 b2 : OrderBook) (h1 : b1.levelsDeep = b2.levelsDeep)
    (h2 : b1.bids = b2.bids) (h3 : b1.asks = b2.asks) : b1 = b2 := by
  cases b1
  cases b2
  simp_all

/-- **C7** Idempotence: on every book whose sides satisfy the
sortedness/uniqueness (strictly descending prices) and positive-size
invariants, applying the identical update batch via `processFeed` twice in
succession yields the same book — same bids and asks sequences
element-wise — as applying it once. -/
theorem idempotent_processFeed (b : OrderBook) (fb fa : List OrderFeed)
    (hbs : sortedDesc b.bids) (hbp : posSizes b.bids)
    (hsa : sortedDesc b.asks) (hpa : posSizes b.asks) :
    processFeed fb fa (processFeed fb fa b) = processFeed fb fa b := by
  apply orderBook_ext
  · rfl
  · rw [bids_processFeed, bids_processFeed]
    exact bidPipe_idem b.levelsDeep (mapOrders fb) b.bids hbs hbp
  · rw [asks_processFeed, asks_processFeed]
    exact askPipe_idem b.levelsDeep (mapOrders fa) b.asks hsa hpa

/-- Witness for C7: re-applying the Scenario A batches to the book they
produced from the empty book changes nothing. -/
theorem idempotent_processFeed_witness :
    processFeed [(100,5),(99,3)] [(101,4),(102,2)]
        (processFeed [(100,5),(99,3)] [(101,4),(102,2)]
          { levelsDeep := 25, bids := [], asks := [] })
      = processFeed [(100,5),(99,3)] [(101,4),(102,2)]
          { levelsDeep := 25, bids := [], asks := [] } :=
  idempotent_processFeed { levelsDeep := 25, bids := [], asks := [] }
    [(100,5),(99,3)] [(101,4),(102,2)]
    List.Pairwise.nil (fun o ho => absurd ho (List.not_mem_nil o))
    List.Pairwise.nil (fun o ho => absurd ho (List.not_mem_nil o))
